import Mathlib

/-!
Verification of the tree-reconciliation / mutation-instruction pipeline of this
repository against its specification.

Part I embeds the two source files directly:
  * `ABI35_0_0ShadowViewMutation.cpp` — the five mutation factory functions.
  * `TypedArrayApi.h` — the typed-array kind/name maps and `arrayBufferUpdate`.

Part II models the Differ and the Applier, whose code is not part of the
provided sources; those definitions are modelled from the specification text
(sections 4.2, 4.3 and 7) and are marked as such in their doc comments.
-/

namespace Fabric

/-- The five mutation type tags of `ShadowViewMutation` (source: the `.type`
designators in `ABI35_0_0ShadowViewMutation.cpp`). -/
inductive MutationType where
  | create
  | delete
  | insert
  | remove
  | update
deriving DecidableEq, Repr

/-- An opaque view snapshot.  The `ShadowView` struct itself is external to the
provided sources; the factories only move whole values of it around, so its
content is abstracted to a single field.  The default value stands for the C++
value-initialized `ShadowView{}`. -/
structure ShadowView where
  content : Nat := 0
deriving DecidableEq, Repr

instance : Inhabited ShadowView := ⟨{}⟩

/-- The `ShadowViewMutation` struct: one type tag, three view operands and an
index.  Fields not mentioned by a designated initializer in the source keep
their value-initialized defaults, which the structure defaults mirror. -/
structure ShadowViewMutation where
  type : MutationType
  parentShadowView : ShadowView := default
  oldChildShadowView : ShadowView := default
  newChildShadowView : ShadowView := default
  index : Int := 0
deriving DecidableEq, Repr

namespace ShadowViewMutation

/-- `ShadowViewMutation::CreateMutation` from the source. -/
def CreateMutation (shadowView : ShadowView) : ShadowViewMutation :=
  { type := .create, newChildShadowView := shadowView, index := -1 }

/-- `ShadowViewMutation::DeleteMutation` from the source. -/
def DeleteMutation (shadowView : ShadowView) : ShadowViewMutation :=
  { type := .delete, oldChildShadowView := shadowView, index := -1 }

/-- `ShadowViewMutation::InsertMutation` from the source. -/
def InsertMutation (parentShadowView childShadowView : ShadowView) (index : Int) :
    ShadowViewMutation :=
  { type := .insert, parentShadowView := parentShadowView,
    newChildShadowView := childShadowView, index := index }

/-- `ShadowViewMutation::RemoveMutation` from the source. -/
def RemoveMutation (parentShadowView childShadowView : ShadowView) (index : Int) :
    ShadowViewMutation :=
  { type := .remove, parentShadowView := parentShadowView,
    oldChildShadowView := childShadowView, index := index }

/-- `ShadowViewMutation::UpdateMutation` from the source. -/
def UpdateMutation (parentShadowView oldChildShadowView newChildShadowView : ShadowView)
    (index : Int) : ShadowViewMutation :=
  { type := .update, parentShadowView := parentShadowView,
    oldChildShadowView := oldChildShadowView,
    newChildShadowView := newChildShadowView, index := index }

end ShadowViewMutation

end Fabric

namespace TypedArrays

/-- The nine-member `TypedArrayKind` enum from `TypedArrayApi.h`. -/
inductive TypedArrayKind where
  | int8Array
  | int16Array
  | int32Array
  | uint8Array
  | uint8ClampedArray
  | uint16Array
  | uint32Array
  | float32Array
  | float64Array
deriving DecidableEq, Repr

/-- `TypedArrayBase::getTypedArrayConstructorName` from the source. -/
def getTypedArrayConstructorName : TypedArrayKind → String
  | .int8Array => "Int8Array"
  | .int16Array => "Int16Array"
  | .int32Array => "Int32Array"
  | .uint8Array => "Uint8Array"
  | .uint8ClampedArray => "Uint8ClampedArray"
  | .uint16Array => "Uint16Array"
  | .uint32Array => "Uint32Array"
  | .float32Array => "Float32Array"
  | .float64Array => "Float64Array"

/-- `TypedArrayBase::getTypedArrayKindForName` from the source; the final
`throw std::runtime_error("unknown type")` is embedded as `none`. -/
def getTypedArrayKindForName (name : String) : Option TypedArrayKind :=
  if name = "Int8Array" then some .int8Array
  else if name = "Int16Array" then some .int16Array
  else if name = "Int32Array" then some .int32Array
  else if name = "Uint8Array" then some .uint8Array
  else if name = "Uint8ClampedArray" then some .uint8ClampedArray
  else if name = "Uint16Array" then some .uint16Array
  else if name = "Uint32Array" then some .uint32Array
  else if name = "Float32Array" then some .float32Array
  else if name = "Float64Array" then some .float64Array
  else none

/-- The nine constructor names, in enum order. -/
def typedArrayNames : List String :=
  ["Int8Array", "Int16Array", "Int32Array", "Uint8Array", "Uint8ClampedArray",
   "Uint16Array", "Uint32Array", "Float32Array", "Float64Array"]

/-- `arrayBufferUpdate` from `TypedArrayApi.h`.  The JS `ArrayBuffer` is
embedded as its byte list, `data` as the byte list being written.  The source
checks only `data.size() > blockSize` before copying `data` into the buffer
starting at byte `offset`; the embedding reproduces exactly that check (an
out-of-range copy shows up as a result longer than the buffer, mirroring the
out-of-bounds write the unchecked `std::copy` would perform). -/
def arrayBufferUpdate (buffer : List Nat) (data : List Nat) (offset : Nat) :
    Except String (List Nat) :=
  if data.length > buffer.length then
    .error "ArrayBuffer is to small to fit data"
  else
    .ok (buffer.take offset ++ data ++ buffer.drop (offset + data.length))

end TypedArrays

namespace Reconcile

mutual
/-- Modelled from the spec: a `ViewSnapshot` tree node (section 3) — identity,
type discriminator, opaque property bag (an equality-comparable blob), and an
ordered forest of children. -/
inductive VTree where
  | node (ident ty props : Nat) (children : VForest)
/-- An ordered forest of `ViewSnapshot` children. -/
inductive VForest where
  | nil
  | cons (head : VTree) (tail : VForest)
end

/-- Identity of a node. -/
def VTree.ident : VTree → Nat
  | .node i _ _ _ => i

/-- Type discriminator of a node. -/
def VTree.ty : VTree → Nat
  | .node _ t _ _ => t

/-- Property bag of a node. -/
def VTree.props : VTree → Nat
  | .node _ _ p _ => p

/-- Children forest of a node. -/
def VTree.children : VTree → VForest
  | .node _ _ _ cs => cs

/-- The children forest as an ordinary list. -/
def VForest.toList : VForest → List VTree
  | .nil => []
  | .cons t ts => t :: ts.toList

mutual
/-- All identities of a subtree, in preorder. -/
def nodeIds : VTree → List Nat
  | .node i _ _ cs => i :: forestIds cs
/-- All identities of a forest, in preorder. -/
def forestIds : VForest → List Nat
  | .nil => []
  | .cons t ts => nodeIds t ++ forestIds ts
end

/-- Top-level identities of the trees of a forest, in order. -/
def idents : VForest → List Nat
  | .nil => []
  | .cons t ts => t.ident :: idents ts

/-- Find the first tree of a forest whose root carries a given identity. -/
def findByIdent (k : Nat) : VForest → Option VTree
  | .nil => none
  | .cons t ts => if t.ident = k then some t else findByIdent k ts

/-- Modelled from the spec: a tree is well-formed when no identity occurs twice
in it (section 6: single root, acyclic, unique identities). -/
def WF (t : VTree) : Prop := (nodeIds t).Nodup

instance (t : VTree) : Decidable (WF t) := by unfold WF; infer_instance

mutual
/-- Modelled from the spec: the per-pair compatibility condition the differ's
per-parent matching relies on — a matched pair shares identity and type, and a
subtree identity shared with the other side occurs only inside the partner
matched by identity (no reparenting, no type change under one identity). -/
def simT (o n : VTree) : Bool :=
  match o, n with
  | .node oi oty _ oCs, .node ni nty _ nCs =>
      oi == ni && oty == nty && simF oCs nCs
/-- Forest-level compatibility: every old child is either matched by identity
to a new child (compatibly, with shared subtree identities confined to that
partner) or identity-disjoint from the whole new forest. -/
def simF (os ns : VForest) : Bool :=
  match os with
  | .nil => true
  | .cons o os' =>
      (match findByIdent o.ident ns with
       | some nc =>
           simT o nc &&
             (nodeIds o).all fun k => !(decide (k ∈ forestIds ns)) || decide (k ∈ nodeIds nc)
       | none => (nodeIds o).all fun k => !(decide (k ∈ forestIds ns)))
      && simF os' ns
end

/-- A host node: type, props and the ordered list of child handles.  Handles
are node identities (the identity map of the spec is the association itself). -/
structure HostNode where
  ty : Nat
  props : Nat
  children : List Nat
deriving DecidableEq, Repr

/-- Modelled from the spec: the live host tree plus the identity map (section
4.3), embedded as an association from identity to host node. -/
abbrev HostState := List (Nat × HostNode)

/-- Look up a host node by identity. -/
def lookupN (k : Nat) : HostState → Option HostNode
  | [] => none
  | e :: S => if e.1 = k then some e.2 else lookupN k S

/-- Remove every association for an identity. -/
def removeKey (k : Nat) : HostState → HostState
  | [] => []
  | e :: S => if e.1 = k then removeKey k S else e :: removeKey k S

/-- Rewrite the host node stored for an identity. -/
def setNode (k : Nat) (f : HostNode → HostNode) : HostState → HostState
  | [] => []
  | e :: S => (if e.1 = k then (e.1, f e.2) else e) :: setNode k f S

mutual
/-- The host state a snapshot tree denotes: every node of the subtree, keyed by
identity, carrying its type, props and child identities. -/
def reify : VTree → HostState
  | .node i t p cs => (i, ⟨t, p, idents cs⟩) :: reifyF cs
/-- `reify` over a forest. -/
def reifyF : VForest → HostState
  | .nil => []
  | .cons t ts => reify t ++ reifyF ts
end

/-- Modelled from the spec: the five-variant `MutationInstruction` sum type of
section 3, with per-variant operands. -/
inductive M where
  | create (newNode : VTree)
  | delete (oldNode : VTree)
  | insert (parentNode newNode : VTree) (index : Nat)
  | remove (parentNode oldNode : VTree) (index : Nat)
  | update (parentNode oldNode newNode : VTree) (index : Nat)

/-- The applier's failure taxonomy (spec section 7). -/
inductive AErr where
  | hostAllocation
  | indexOutOfRange
  | unknownIdentity
deriving DecidableEq, Repr

/-- Insert an element into a list at an index (appends when the index reaches
the end; the applier guards the index before using this). -/
def insIdx : List Nat → Nat → Nat → List Nat
  | l, 0, a => a :: l
  | [], _ + 1, a => [a]
  | x :: l, j + 1, a => x :: insIdx l j a

/-- Modelled from the spec: apply one mutation instruction to the host state
(section 4.3).  Create allocates an unattached node and registers the identity
(the host cannot allocate a second view for a still-registered identity);
Delete releases by identity; Insert attaches a child handle at an index;
Remove detaches the child at an index; Update replaces the content payload in
place. -/
def applyM (S : HostState) : M → Except AErr HostState
  | .create n =>
      match lookupN n.ident S with
      | some _ => .error .hostAllocation
      | none => .ok ((n.ident, ⟨n.ty, n.props, []⟩) :: S)
  | .delete o =>
      match lookupN o.ident S with
      | some _ => .ok (removeKey o.ident S)
      | none => .error .unknownIdentity
  | .insert p c i =>
      match lookupN p.ident S, lookupN c.ident S with
      | some pn, some _ =>
          if i ≤ pn.children.length then
            .ok (setNode p.ident (fun h => ⟨h.ty, h.props, insIdx h.children i c.ident⟩) S)
          else .error .indexOutOfRange
      | _, _ => .error .unknownIdentity
  | .remove p _ i =>
      match lookupN p.ident S with
      | some pn =>
          if i < pn.children.length then
            .ok (setNode p.ident (fun h => ⟨h.ty, h.props, h.children.eraseIdx i⟩) S)
          else .error .indexOutOfRange
      | none => .error .unknownIdentity
  | .update _ o n _ =>
      match lookupN o.ident S with
      | some _ => .ok (setNode o.ident (fun h => ⟨h.ty, n.props, h.children⟩) S)
      | none => .error .unknownIdentity

/-- Run an instruction list in order, stopping at the first failure. -/
def applyList : List M → HostState → Except AErr HostState
  | [], S => .ok S
  | m :: L, S =>
      match applyM S m with
      | .ok S' => applyList L S'
      | .error e => .error e

/-- Modelled from the spec: the applier's driver (sections 4.3 and 7) — runs
the list strictly in order from instruction index `i`; on the first failure it
stops, reporting the failing instruction's index (which equals the number of
instructions that succeeded) and the error, and returns the host state the
successful prefix produced. -/
def applyFrom : List M → HostState → Nat → HostState × Option (Nat × AErr)
  | [], S, _ => (S, none)
  | m :: L, S, i =>
      match applyM S m with
      | .ok S' => applyFrom L S' (i + 1)
      | .error e => (S, some (i, e))

/-- Apply a full instruction list to a host state (spec section 4.3). -/
def applyAll (L : List M) (S : HostState) : HostState × Option (Nat × AErr) :=
  applyFrom L S 0

mutual
/-- Modelled from the spec: instructions building a freshly created subtree —
Create top-down, each node's Create immediately before the Insert that places
it, the subtree below a created node built recursively afterwards (section
4.2, ordering paragraph). -/
def createSub (par : VTree) (t : VTree) (idx : Nat) : List M :=
  match t with
  | .node _ _ _ cs => .create t :: .insert par t idx :: createSubF t cs 0
/-- `createSub` over the children of a created node, at positions `j`, `j+1`, …. -/
def createSubF (par : VTree) (ts : VForest) (j : Nat) : List M :=
  match ts with
  | .nil => []
  | .cons t ts => createSub par t j ++ createSubF par ts (j + 1)
end

mutual
/-- Modelled from the spec: Delete instructions for a detached subtree, bottom
up — deepest children before their parent (section 4.2, ordering paragraph). -/
def deleteSub (t : VTree) : List M :=
  match t with
  | .node _ _ _ cs => deleteSubF cs ++ [.delete t]
/-- `deleteSub` over a forest. -/
def deleteSubF : VForest → List M
  | .nil => []
  | .cons t ts => deleteSub t ++ deleteSubF ts
end

/-- Remove instructions for the trees of an indexed list, emitted from the
highest index down to 0 so every index is valid when it is applied. -/
def removesRev (par : VTree) : List (Nat × VTree) → List M
  | [] => []
  | (i, o) :: r => .remove par o i :: removesRev par r

/-- Modelled from the spec: the Remove phase of one parent — detach every old
child, last position first (section 4.2: per parent, Removes first). -/
def removesList (par : VTree) (os : VForest) : List M :=
  removesRev par os.toList.enum.reverse

/-- Modelled from the spec: the Delete phase of one parent — bottom-up Deletes
for every old child whose identity does not occur among the new children
(section 4.2 case 3). -/
def deletesList (ns : VForest) (os : VForest) : List M :=
  (os.toList.filter fun oc => !(decide (oc.ident ∈ idents ns))).flatMap deleteSub

mutual
/-- Modelled from the spec: the differ's walk (section 4.2).  For a matched
pair of nodes it emits an Update when the property bags differ, then
reconciles the child lists: when the identity sequences agree the children are
diffed in place; otherwise the parent's children are detached (Removes, last
first), old children whose identity left the list are deleted bottom-up, and
the new child list is built back up in order — reattaching detached children
by identity (recursing into them) and creating fresh subtrees top-down. -/
def diffNode (par o n : VTree) (idx : Nat) : List M :=
  match o, n with
  | .node _ _ oProps oCs, .node _ _ nProps nCs =>
      (if oProps = nProps then [] else [.update par o n idx]) ++
        (if idents oCs = idents nCs then
          diffPairs n oCs nCs 0
        else
          removesList n oCs ++ deletesList nCs oCs ++ insertsList n oCs nCs 0)
termination_by structural n
/-- In-place diffing of positionally matched children (identity sequences are
equal), at positions `j`, `j+1`, …. -/
def diffPairs (par : VTree) (os ns : VForest) (j : Nat) : List M :=
  match os, ns with
  | .cons o os', .cons nn ns' => diffNode par o nn j ++ diffPairs par os' ns' (j + 1)
  | _, _ => []
termination_by structural ns
/-- Modelled from the spec: the Insert/Create phase of one parent — the new
children in order; a child whose identity was among the old children is
reattached and diffed, a fresh one is created as a subtree (section 4.2 cases
2 and 4). -/
def insertsList (par : VTree) (os ns : VForest) (j : Nat) : List M :=
  match ns with
  | .nil => []
  | .cons nn ns' =>
      (match findByIdent nn.ident os with
       | some oc => .insert par nn j :: diffNode par oc nn j
       | none => createSub par nn j) ++ insertsList par os ns' (j + 1)
termination_by structural ns
end

/-- Modelled from the spec: `diff(oldTree, newTree)` (section 4.2). -/
def diff (a b : VTree) : List M := diffNode b a b 0

/-- Statement: applying the bottom-up Deletes of a detached subtree removes
exactly the subtree's identities from the host state. -/
def DelP (t : VTree) : Prop := ∀ S : HostState, (nodeIds t).Nodup →
  (∀ k ∈ nodeIds t, (lookupN k S).isSome = true) →
  ∃ S', applyList (deleteSub t) S = .ok S' ∧
    ∀ k, lookupN k S' = if k ∈ nodeIds t then none else lookupN k S

/-- Forest version of `DelP`. -/
def DelQ (ts : VForest) : Prop := ∀ S : HostState, (forestIds ts).Nodup →
  (∀ k ∈ forestIds ts, (lookupN k S).isSome = true) →
  ∃ S', applyList (deleteSubF ts) S = .ok S' ∧
    ∀ k, lookupN k S' = if k ∈ forestIds ts then none else lookupN k S

/-- Statement: building a fresh subtree appends its root to the parent's child
list and materializes exactly the subtree's reification. -/
def CreP (t : VTree) : Prop := ∀ (S : HostState) (par : VTree) (idx : Nat) (pn : HostNode),
  (nodeIds t).Nodup → lookupN par.ident S = some pn → idx = pn.children.length →
  (∀ k ∈ nodeIds t, lookupN k S = none) → par.ident ∉ nodeIds t →
  ∃ S', applyList (createSub par t idx) S = .ok S' ∧
    ∀ k, lookupN k S' =
      if k = par.ident then some ⟨pn.ty, pn.props, pn.children ++ [t.ident]⟩
      else if k ∈ nodeIds t then lookupN k (reify t) else lookupN k S

/-- Forest version of `CreP`. -/
def CreQ (ts : VForest) : Prop := ∀ (S : HostState) (par : VTree) (j : Nat) (pn : HostNode),
  (forestIds ts).Nodup → lookupN par.ident S = some pn → j = pn.children.length →
  (∀ k ∈ forestIds ts, lookupN k S = none) → par.ident ∉ forestIds ts →
  ∃ S', applyList (createSubF par ts j) S = .ok S' ∧
    ∀ k, lookupN k S' =
      if k = par.ident then some ⟨pn.ty, pn.props, pn.children ++ idents ts⟩
      else if k ∈ forestIds ts then lookupN k (reifyF ts) else lookupN k S

mutual
/-- Size of a tree, used as the measure of the differ's recursion. -/
def tsizeT : VTree → Nat
  | .node _ _ _ cs => 1 + tsizeF cs
/-- Size of a forest. -/
def tsizeF : VForest → Nat
  | .nil => 0
  | .cons t ts => tsizeT t + tsizeF ts
end

/-- Identities of the old children that are matched (by identity) from the new
children — exactly the host entries the Insert phase replaces. -/
def matchedOldIds (osAll : VForest) (ns : VForest) : List Nat :=
  ns.toList.flatMap fun nc =>
    match findByIdent nc.ident osAll with
    | some oc => nodeIds oc
    | none => []

/-- `DN n`: reconciling any compatible old subtree `o` into `n` succeeds and
rewrites the host state from `o`'s reification to `n`'s, erasing identities
that disappeared and leaving every other association untouched. -/
def DN (n : VTree) : Prop := ∀ (o par : VTree) (idx : Nat) (S : HostState),
  simT o n = true → (nodeIds o).Nodup → (nodeIds n).Nodup →
  (∀ k ∈ nodeIds o, lookupN k S = lookupN k (reify o)) →
  (∀ k ∈ nodeIds n, k ∉ nodeIds o → lookupN k S = none) →
  ∃ S', applyList (diffNode par o n idx) S = .ok S' ∧
    ∀ k, lookupN k S' = if k ∈ nodeIds n then lookupN k (reify n)
      else if k ∈ nodeIds o then none else lookupN k S

def cexLeaf (i : Nat) : VTree := .node i 0 0 .nil

/-- Old tree of the reparenting counterexample: `root 1 [2, 4[3]]`. -/
def cexA : VTree :=
  .node 1 0 0 (.cons (cexLeaf 2) (.cons (.node 4 0 0 (.cons (cexLeaf 3) .nil)) .nil))

/-- New tree of the reparenting counterexample: `root 1 [2[3], 4]`. -/
def cexB : VTree :=
  .node 1 0 0 (.cons (.node 2 0 0 (.cons (cexLeaf 3) .nil)) (.cons (cexLeaf 4) .nil))

/-- Old tree for the round-trip witness. -/
def rtA : VTree := .node 1 0 0 (.cons (.node 2 0 5 .nil) .nil)

/-- New tree for the round-trip witness: root props change, child 2's props
change, and a fresh child 3 appears. -/
def rtB : VTree :=
  .node 1 0 7 (.cons (.node 2 0 6 .nil) (.cons (.node 3 1 0 .nil) .nil))

/-- The parent identity an Insert instruction attaches into, if any. -/
def insertParent? : M → Option Nat
  | .insert q _ _ => some q.ident
  | _ => none

/-- The parent identity a Remove instruction detaches from, if any. -/
def removeParent? : M → Option Nat
  | .remove q _ _ => some q.ident
  | _ => none

/-- The identity a Delete instruction releases, if any. -/
def deleteId? : M → Option Nat
  | .delete x => some x.ident
  | _ => none

/-- The identity of the child a Remove instruction detaches, if any. -/
def removeChildId? : M → Option Nat
  | .remove _ c _ => some c.ident
  | _ => none

/-- The identity a Create instruction allocates, if any. -/
def createId? : M → Option Nat
  | .create x => some x.ident
  | _ => none

/-- The identity of the child an Insert instruction attaches, if any. -/
def insertChildId? : M → Option Nat
  | .insert _ c _ => some c.ident
  | _ => none

/-- The ordering relation of the spec for a pair of instructions appearing in
emission order: an Insert into a parent is never followed by a Remove from the
same parent, a Delete of a node is never followed by the Remove detaching that
node, and an Insert attaching a node is never followed by the Create
allocating that node. -/
def ROrd (a b : M) : Prop :=
  (∀ p, insertParent? a = some p → removeParent? b = some p → False) ∧
  (∀ x, deleteId? a = some x → removeChildId? b = some x → False) ∧
  (∀ x, insertChildId? a = some x → createId? b = some x → False)

/-- Shape bound for the instructions emitted when reconciling into a new
subtree `n`: Removes and Inserts act on parents inside `n`, Deletes release
identities of the old children's subtrees, Creates and attached children stay
below `n`. -/
def DBStmt (n : VTree) : Prop := ∀ o par idx, ∀ m ∈ diffNode par o n idx,
  (∃ q a b i, m = .update q a b i) ∨
  (∃ q c i, m = .remove q c i ∧ q.ident ∈ nodeIds n ∧ c.ident ∈ forestIds o.children) ∨
  (∃ x, m = .delete x ∧ x.ident ∈ forestIds o.children) ∨
  (∃ x, m = .create x ∧ x.ident ∈ forestIds n.children) ∨
  (∃ q c i, m = .insert q c i ∧ q.ident ∈ nodeIds n ∧ c.ident ∈ forestIds n.children)

/-- `DOrd n`: the emitted instruction list for reconciling into `n` respects
the spec's ordering relation pairwise. -/
def DOrd (n : VTree) : Prop := ∀ o par idx, (nodeIds o).Nodup → (nodeIds n).Nodup →
  List.Pairwise ROrd (diffNode par o n idx)

mutual
/-- The type stored at identity `x` in a tree, if that identity occurs. -/
def tyAt (t : VTree) (x : Nat) : Option Nat :=
  match t with
  | .node i ty _ cs => if i = x then some ty else tyAtF cs x
/-- The type stored at identity `x` in a forest, first occurrence. -/
def tyAtF (ts : VForest) (x : Nat) : Option Nat :=
  match ts with
  | .nil => none
  | .cons t ts =>
      match tyAt t x with
      | some ty => some ty
      | none => tyAtF ts x
end

/-- `DIP n`: when reconciling a compatible old subtree into `n`, every
identity referenced by a Create instruction is fresh (in `n` but not the old
subtree) and every identity referenced by a Delete instruction has vanished
(in the old subtree but not `n`). -/
def DIP (n : VTree) : Prop := ∀ o par idx, simT o n = true →
  (nodeIds o).Nodup → (nodeIds n).Nodup →
  ∀ m ∈ diffNode par o n idx, ∀ x,
    (createId? m = some x → x ∈ nodeIds n ∧ x ∉ nodeIds o) ∧
    (deleteId? m = some x → x ∈ nodeIds o ∧ x ∉ nodeIds n)

/-! ### Basic lemmas about lists, lookups and the tree model -/

/-- List-style induction over forests alone (the mutual recursor needs a tree
motive as well; a trivial one is supplied). -/
theorem forest_induction {Q : VForest → Prop} (nil : Q .nil)
    (cons : ∀ t ts, Q ts → Q (.cons t ts)) (ts : VForest) : Q ts :=
  @VForest.rec (fun _ => True) Q
    (fun _ _ _ _ _ => trivial) nil (fun t ts _ hq => cons t ts hq) ts

/-- Mutual induction over trees and forests, projected to trees. -/
theorem tree_induction {P : VTree → Prop} {Q : VForest → Prop}
    (node : ∀ i t p cs, Q cs → P (.node i t p cs)) (nil : Q .nil)
    (cons : ∀ t ts, P t → Q ts → Q (.cons t ts)) (t : VTree) : P t :=
  @VTree.rec P Q node nil cons t

/-- Mutual induction over trees and forests, projected to forests. -/
theorem tree_induction_forest {P : VTree → Prop} {Q : VForest → Prop}
    (node : ∀ i t p cs, Q cs → P (.node i t p cs)) (nil : Q .nil)
    (cons : ∀ t ts, P t → Q ts → Q (.cons t ts)) (ts : VForest) : Q ts :=
  @VForest.rec P Q node nil cons ts


theorem eraseIdx_append_len (l : List Nat) (a : Nat) : (l ++ [a]).eraseIdx l.length = l := by
  induction l with
  | nil => rfl
  | cons x xs ih => simp [List.eraseIdx, ih]

theorem insIdx_len (l : List Nat) (a : Nat) : insIdx l l.length a = l ++ [a] := by
  induction l with
  | nil => rfl
  | cons x xs ih => simp [insIdx, ih]

@[simp] theorem ident_node (i t p : Nat) (cs : VForest) : (VTree.node i t p cs).ident = i := rfl

@[simp] theorem ty_node (i t p : Nat) (cs : VForest) : (VTree.node i t p cs).ty = t := rfl

@[simp] theorem props_node (i t p : Nat) (cs : VForest) : (VTree.node i t p cs).props = p := rfl

@[simp] theorem children_node (i t p : Nat) (cs : VForest) :
    (VTree.node i t p cs).children = cs := rfl

@[simp] theorem toList_nil : VForest.nil.toList = [] := rfl

@[simp] theorem toList_cons (t : VTree) (ts : VForest) :
    (VForest.cons t ts).toList = t :: ts.toList := rfl

@[simp] theorem lookupN_nil (k : Nat) : lookupN k [] = none := rfl

theorem lookupN_cons (k : Nat) (e : Nat × HostNode) (S : HostState) :
    lookupN k (e :: S) = if e.1 = k then some e.2 else lookupN k S := rfl

theorem lookupN_append_none {k : Nat} {S1 : HostState} (S2 : HostState)
    (h : lookupN k S1 = none) : lookupN k (S1 ++ S2) = lookupN k S2 := by
  induction S1 with
  | nil => rfl
  | cons e S ih =>
      simp only [lookupN, List.cons_append] at h ⊢
      split at h
      · exact absurd h (by simp)
      · simpa [*] using ih h

theorem lookupN_append_some {k : Nat} {S1 : HostState} {v : HostNode} (S2 : HostState)
    (h : lookupN k S1 = some v) : lookupN k (S1 ++ S2) = some v := by
  induction S1 with
  | nil => simp [lookupN] at h
  | cons e S ih =>
      simp only [lookupN, List.cons_append] at h ⊢
      split at h
      · simpa [*] using h
      · simpa [*] using ih h

theorem lookupN_removeKey (k k0 : Nat) (S : HostState) :
    lookupN k (removeKey k0 S) = if k = k0 then none else lookupN k S := by
  induction S with
  | nil => simp [removeKey, lookupN]
  | cons e S ih =>
      by_cases he : e.1 = k0
      · have hrm : removeKey k0 (e :: S) = removeKey k0 S := by simp [removeKey, he]
        rw [hrm, ih, lookupN_cons]
        by_cases hk : k = k0
        · simp [hk]
        · have hek : ¬ e.1 = k := fun h => hk (h.symm.trans he)
          simp [hk, hek]
      · have hrm : removeKey k0 (e :: S) = e :: removeKey k0 S := by simp [removeKey, he]
        rw [hrm]
        simp only [lookupN_cons]
        by_cases hek : e.1 = k
        · have hkk : ¬ k = k0 := fun h => he (by rw [hek, h])
          simp [hek, hkk]
        · simp only [hek, if_false]
          exact ih

theorem lookupN_setNode (k k0 : Nat) (f : HostNode → HostNode) (S : HostState) :
    lookupN k (setNode k0 f S) = if k = k0 then (lookupN k S).map f else lookupN k S := by
  induction S with
  | nil => simp [setNode, lookupN]
  | cons e S ih =>
      by_cases he : e.1 = k0
      · have hsn : setNode k0 f (e :: S) = (e.1, f e.2) :: setNode k0 f S := by
          simp [setNode, he]
        rw [hsn]
        simp only [lookupN_cons]
        by_cases hek : e.1 = k
        · have hk : k = k0 := hek.symm.trans he
          simp [hek, hk]
        · have hk : ¬ k = k0 := fun h => hek (he.trans h.symm)
          simp [hek, hk, ih]
      · have hsn : setNode k0 f (e :: S) = e :: setNode k0 f S := by simp [setNode, he]
        rw [hsn]
        simp only [lookupN_cons]
        by_cases hek : e.1 = k
        · have hk : ¬ k = k0 := fun h => he (hek.trans h)
          simp [hek, hk]
        · simp [hek, ih]

theorem lookupN_isSome_iff (k : Nat) (S : HostState) :
    (lookupN k S).isSome ↔ k ∈ S.map Prod.fst := by
  induction S with
  | nil => simp [lookupN]
  | cons e S ih =>
      simp only [lookupN, List.map_cons, List.mem_cons]
      split <;> simp_all <;> omega

theorem lookupN_eq_none_iff (k : Nat) (S : HostState) :
    lookupN k S = none ↔ k ∉ S.map Prod.fst := by
  rw [← lookupN_isSome_iff, Option.isSome_iff_ne_none]
  tauto

theorem nodeIds_def (t : VTree) : nodeIds t = t.ident :: forestIds t.children := by
  cases t; rfl

@[simp] theorem forestIds_nil : forestIds .nil = [] := rfl

@[simp] theorem forestIds_cons (t : VTree) (ts : VForest) :
    forestIds (.cons t ts) = nodeIds t ++ forestIds ts := rfl

@[simp] theorem idents_nil : idents .nil = [] := rfl

@[simp] theorem idents_cons (t : VTree) (ts : VForest) :
    idents (.cons t ts) = t.ident :: idents ts := rfl

theorem ident_mem_nodeIds (t : VTree) : t.ident ∈ nodeIds t := by
  rw [nodeIds_def]; exact List.mem_cons_self _ _

theorem mem_forestIds_iff (k : Nat) (ts : VForest) :
    k ∈ forestIds ts ↔ ∃ t ∈ ts.toList, k ∈ nodeIds t := by
  induction ts using forest_induction with
  | nil => simp
  | cons t ts ih => simp [ih]

theorem idents_subset_forestIds {k : Nat} {ts : VForest} (h : k ∈ idents ts) :
    k ∈ forestIds ts := by
  induction ts using forest_induction with
  | nil => simp at h
  | cons t ts ih =>
      simp at h ⊢
      rcases h with h | h
      · exact Or.inl (h ▸ ident_mem_nodeIds t)
      · exact Or.inr (ih h)

theorem mem_forestIds_of_mem {t : VTree} {ts : VForest} {k : Nat}
    (ht : t ∈ ts.toList) (hk : k ∈ nodeIds t) : k ∈ forestIds ts :=
  (mem_forestIds_iff k ts).mpr ⟨t, ht, hk⟩

theorem findByIdent_some {k : Nat} {ts : VForest} {t : VTree}
    (h : findByIdent k ts = some t) : t ∈ ts.toList ∧ t.ident = k := by
  induction ts using forest_induction with
  | nil => simp [findByIdent] at h
  | cons u ts ih =>
      simp only [findByIdent] at h
      split at h
      · cases h; simp [*]
      · have := ih h
        exact ⟨by simp [this.1], this.2⟩

theorem findByIdent_none_iff (k : Nat) (ts : VForest) :
    findByIdent k ts = none ↔ k ∉ idents ts := by
  induction ts using forest_induction with
  | nil => simp [findByIdent]
  | cons u ts ih =>
      simp only [findByIdent, idents_cons, List.mem_cons]
      split <;> simp_all <;> omega

theorem idents_nodup {ts : VForest} (h : (forestIds ts).Nodup) : (idents ts).Nodup := by
  induction ts using forest_induction with
  | nil => simp
  | cons t ts ih =>
      simp only [forestIds_cons, List.nodup_append] at h
      simp only [idents_cons, List.nodup_cons]
      refine ⟨fun hc => ?_, ih h.2.1⟩
      exact h.2.2 (ident_mem_nodeIds t) (idents_subset_forestIds hc)

theorem nodeIds_nodup_of_mem {ts : VForest} {t : VTree} (h : (forestIds ts).Nodup)
    (ht : t ∈ ts.toList) : (nodeIds t).Nodup := by
  induction ts using forest_induction with
  | nil => simp at ht
  | cons u ts ih =>
      simp only [forestIds_cons, List.nodup_append] at h
      rcases (by simpa using ht) with rfl | ht'
      · exact h.1
      · exact ih h.2.1 ht'

theorem mem_unique_tree {ts : VForest} {t t' : VTree} {k : Nat} (h : (forestIds ts).Nodup)
    (ht : t ∈ ts.toList) (ht' : t' ∈ ts.toList) (hk : k ∈ nodeIds t) (hk' : k ∈ nodeIds t') :
    t = t' := by
  induction ts using forest_induction with
  | nil => simp at ht
  | cons u ts ih =>
      simp only [forestIds_cons, List.nodup_append] at h
      rcases (by simpa using ht) with rfl | h1 <;> rcases (by simpa using ht') with rfl | h2
      · rfl
      · exact absurd (mem_forestIds_of_mem h2 hk') (h.2.2 hk)
      · exact absurd (mem_forestIds_of_mem h1 hk) (h.2.2 hk')
      · exact ih h.2.1 h1 h2

theorem mem_idents_of_mem {ts : VForest} {t : VTree} (ht : t ∈ ts.toList) :
    t.ident ∈ idents ts := by
  induction ts using forest_induction with
  | nil => simp at ht
  | cons u ts ih =>
      rcases (by simpa using ht) with rfl | ht'
      · simp
      · simp [ih ht']

theorem findByIdent_of_mem {ts : VForest} {t : VTree} (h : (idents ts).Nodup)
    (ht : t ∈ ts.toList) : findByIdent t.ident ts = some t := by
  induction ts using forest_induction with
  | nil => simp at ht
  | cons u ts ih =>
      simp only [idents_cons, List.nodup_cons] at h
      rcases (by simpa using ht) with rfl | ht'
      · simp [findByIdent]
      · have hne : ¬ u.ident = t.ident := fun he => h.1 (he ▸ mem_idents_of_mem ht')
        simp [findByIdent, hne, ih h.2 ht']

mutual
theorem reify_keys_T (t : VTree) : (reify t).map Prod.fst = nodeIds t := by
  cases t with
  | node i ty p cs =>
      show (reify (.node i ty p cs)).map Prod.fst = _
      rw [reify, nodeIds]
      simpa using reify_keys_F cs
theorem reify_keys_F (ts : VForest) : (reifyF ts).map Prod.fst = forestIds ts := by
  cases ts with
  | nil => rfl
  | cons t ts =>
      rw [reifyF, forestIds]
      simp [reify_keys_T t, reify_keys_F ts]
end

theorem reify_def (t : VTree) :
    reify t = (t.ident, ⟨t.ty, t.props, idents t.children⟩) :: reifyF t.children := by
  cases t; rfl

theorem lookupN_reify_none {k : Nat} {t : VTree} (h : k ∉ nodeIds t) :
    lookupN k (reify t) = none := by
  rw [lookupN_eq_none_iff, reify_keys_T]; exact h

theorem lookupN_reifyF_none {k : Nat} {ts : VForest} (h : k ∉ forestIds ts) :
    lookupN k (reifyF ts) = none := by
  rw [lookupN_eq_none_iff, reify_keys_F]; exact h

theorem lookupN_reify_self (t : VTree) :
    lookupN t.ident (reify t) = some ⟨t.ty, t.props, idents t.children⟩ := by
  rw [reify_def, lookupN_cons]; simp

theorem lookupN_reify_ne {k : Nat} (t : VTree) (h : k ≠ t.ident) :
    lookupN k (reify t) = lookupN k (reifyF t.children) := by
  rw [reify_def, lookupN_cons, if_neg (fun hc => h hc.symm)]

theorem lookupN_reifyF_of_mem {ts : VForest} {t : VTree} {k : Nat}
    (h : (forestIds ts).Nodup) (ht : t ∈ ts.toList) (hk : k ∈ nodeIds t) :
    lookupN k (reifyF ts) = lookupN k (reify t) := by
  induction ts using forest_induction with
  | nil => simp at ht
  | cons u ts ih =>
      simp only [forestIds_cons, List.nodup_append] at h
      rcases (by simpa using ht) with rfl | ht'
      · show lookupN k (reify t ++ reifyF ts) = _
        rcases Option.isSome_iff_exists.mp
            ((lookupN_isSome_iff k (reify t)).mpr (by rw [reify_keys_T]; exact hk)) with ⟨v, hv⟩
        rw [lookupN_append_some _ hv, hv]
      · show lookupN k (reify u ++ reifyF ts) = _
        rw [lookupN_append_none _ (lookupN_reify_none (fun hc => h.2.2 hc
          (mem_forestIds_of_mem ht' hk))), ih h.2.1 ht']

/-! ### Inversion lemmas for the compatibility predicate -/

theorem simT_iff (o n : VTree) :
    simT o n = true ↔
      o.ident = n.ident ∧ o.ty = n.ty ∧ simF o.children n.children = true := by
  cases o with
  | node oi oty op oCs =>
      cases n with
      | node ni nty np nCs => simp [simT, Bool.and_eq_true, and_assoc]

theorem simF_cons (o : VTree) (os ns : VForest) (h : simF (.cons o os) ns = true) :
    simF os ns = true := by
  rw [simF] at h
  exact (Bool.and_eq_true ..|>.mp h).2

theorem simF_head_matched {o : VTree} {os ns : VForest} {nc : VTree}
    (h : simF (.cons o os) ns = true) (hf : findByIdent o.ident ns = some nc) :
    simT o nc = true ∧ ∀ k ∈ nodeIds o, k ∈ forestIds ns → k ∈ nodeIds nc := by
  rw [simF, hf] at h
  have h1 := (Bool.and_eq_true ..|>.mp h).1
  have h2 := (Bool.and_eq_true ..|>.mp h1).1
  have h3 := (Bool.and_eq_true ..|>.mp h1).2
  refine ⟨h2, fun k hk hmem => ?_⟩
  have := (List.all_eq_true.mp h3) k hk
  simp only [Bool.or_eq_true, Bool.not_eq_true', decide_eq_false_iff_not,
    decide_eq_true_eq] at this
  tauto

theorem simF_head_unmatched {o : VTree} {os ns : VForest}
    (h : simF (.cons o os) ns = true) (hf : findByIdent o.ident ns = none) :
    ∀ k ∈ nodeIds o, k ∉ forestIds ns := by
  rw [simF, hf] at h
  have h1 := (Bool.and_eq_true ..|>.mp h).1
  intro k hk
  have := (List.all_eq_true.mp h1) k hk
  simpa using this

theorem simF_matched {os ns : VForest} {o nc : VTree} (h : simF os ns = true)
    (ho : o ∈ os.toList) (hf : findByIdent o.ident ns = some nc) :
    simT o nc = true ∧ ∀ k ∈ nodeIds o, k ∈ forestIds ns → k ∈ nodeIds nc := by
  induction os using forest_induction with
  | nil => simp at ho
  | cons u os ih =>
      rcases (by simpa using ho) with rfl | ho'
      · exact simF_head_matched h hf
      · exact ih (simF_cons _ _ _ h) ho'

theorem simF_unmatched {os ns : VForest} {o : VTree} (h : simF os ns = true)
    (ho : o ∈ os.toList) (hf : findByIdent o.ident ns = none) :
    ∀ k ∈ nodeIds o, k ∉ forestIds ns := by
  induction os using forest_induction with
  | nil => simp at ho
  | cons u os ih =>
      rcases (by simpa using ho) with rfl | ho'
      · exact simF_head_unmatched h hf
      · exact ih (simF_cons _ _ _ h) ho'

/-! ### Composition of instruction application -/

theorem applyList_append_ok {L1 : List M} {S S' : HostState} (L2 : List M)
    (h : applyList L1 S = .ok S') : applyList (L1 ++ L2) S = applyList L2 S' := by
  induction L1 generalizing S with
  | nil => cases h; rfl
  | cons m L ih =>
      simp only [applyList, List.cons_append] at h ⊢
      cases hm : applyM S m with
      | ok S1 => rw [hm] at h; exact ih h
      | error e => rw [hm] at h; cases h

theorem applyList_append_err {L1 : List M} {S : HostState} {e : AErr} (L2 : List M)
    (h : applyList L1 S = .error e) : applyList (L1 ++ L2) S = .error e := by
  induction L1 generalizing S with
  | nil => cases h
  | cons m L ih =>
      simp only [applyList, List.cons_append] at h ⊢
      cases hm : applyM S m with
      | ok S1 => rw [hm] at h; exact ih h
      | error e' => rw [hm] at h; exact h

theorem applyList_cons_ok {S S1 : HostState} {m : M} (L : List M)
    (h : applyM S m = .ok S1) : applyList (m :: L) S = applyList L S1 := by
  simp [applyList, h]

theorem applyM_create_ok {S : HostState} {n : VTree} (h : lookupN n.ident S = none) :
    applyM S (.create n) = .ok ((n.ident, ⟨n.ty, n.props, []⟩) :: S) := by
  simp [applyM, h]

theorem applyM_delete_ok {S : HostState} {o : VTree} (h : (lookupN o.ident S).isSome = true) :
    applyM S (.delete o) = .ok (removeKey o.ident S) := by
  rcases Option.isSome_iff_exists.mp h with ⟨v, hv⟩
  simp [applyM, hv]

theorem applyM_insert_ok {S : HostState} {p c : VTree} {i : Nat} {pn : HostNode}
    (hp : lookupN p.ident S = some pn) (hc : (lookupN c.ident S).isSome = true)
    (hi : i ≤ pn.children.length) :
    applyM S (.insert p c i) =
      .ok (setNode p.ident (fun h => ⟨h.ty, h.props, insIdx h.children i c.ident⟩) S) := by
  rcases Option.isSome_iff_exists.mp hc with ⟨v, hv⟩
  simp [applyM, hp, hv, hi]

theorem applyM_remove_ok {S : HostState} {p c : VTree} {i : Nat} {pn : HostNode}
    (hp : lookupN p.ident S = some pn) (hi : i < pn.children.length) :
    applyM S (.remove p c i) =
      .ok (setNode p.ident (fun h => ⟨h.ty, h.props, h.children.eraseIdx i⟩) S) := by
  simp [applyM, hp, hi]

theorem applyM_update_ok {S : HostState} {p o n : VTree} {i : Nat}
    (h : (lookupN o.ident S).isSome = true) :
    applyM S (.update p o n i) =
      .ok (setNode o.ident (fun h => ⟨h.ty, n.props, h.children⟩) S) := by
  rcases Option.isSome_iff_exists.mp h with ⟨v, hv⟩
  simp [applyM, hv]

/-! ### Correctness of the Delete phase -/


theorem delete_step_node (i ty p : Nat) (cs : VForest) (ih : DelQ cs) :
    DelP (.node i ty p cs) := by
  intro S hnd hpres
  rw [nodeIds_def] at hnd hpres
  simp only [children_node, ident_node, List.nodup_cons] at hnd
  obtain ⟨S1, h1, hpost1⟩ := ih S hnd.2 (fun k hk => hpres k (by simp [hk]))
  have hiS1 : (lookupN (VTree.ident (.node i ty p cs)) S1).isSome = true := by
    rw [ident_node, hpost1 i, if_neg hnd.1]
    exact hpres i (by simp)
  refine ⟨removeKey i S1, ?_, ?_⟩
  · show applyList (deleteSubF cs ++ [.delete (.node i ty p cs)]) S = _
    rw [applyList_append_ok _ h1, applyList_cons_ok _ (applyM_delete_ok hiS1)]
    rfl
  · intro k
    rw [lookupN_removeKey, nodeIds_def, hpost1 k]
    simp only [children_node, ident_node, List.mem_cons]
    by_cases hk : k = i
    · simp [hk]
    · simp [hk]

theorem delete_step_nil : DelQ .nil := by
  intro S _ _
  exact ⟨S, rfl, fun k => by simp⟩

theorem delete_step_cons (t : VTree) (ts : VForest) (iht : DelP t) (ihts : DelQ ts) :
    DelQ (.cons t ts) := by
  intro S hnd hpres
  simp only [forestIds_cons, List.nodup_append] at hnd
  obtain ⟨S1, h1, hpost1⟩ := iht S hnd.1 (fun k hk => hpres k (by simp [hk]))
  obtain ⟨S2, h2, hpost2⟩ := ihts S1 hnd.2.1 (fun k hk => by
    rw [hpost1 k, if_neg (fun hc => hnd.2.2 hc hk)]
    exact hpres k (by simp [hk]))
  refine ⟨S2, ?_, ?_⟩
  · show applyList (deleteSub t ++ deleteSubF ts) S = _
    rw [applyList_append_ok _ h1, h2]
  · intro k
    rw [hpost2 k, forestIds_cons]
    by_cases hk2 : k ∈ forestIds ts
    · simp [hk2]
    · rw [if_neg hk2, hpost1 k]
      by_cases hk1 : k ∈ nodeIds t <;> simp [hk1, hk2]

theorem deleteSub_ok (t : VTree) : DelP t :=
  tree_induction delete_step_node delete_step_nil delete_step_cons t

theorem deleteSubF_ok (ts : VForest) : DelQ ts :=
  tree_induction_forest delete_step_node delete_step_nil delete_step_cons ts

/-! ### Correctness of the Create/Insert phase for fresh subtrees -/


theorem create_step_node (i ty p : Nat) (cs : VForest) (ih : CreQ cs) :
    CreP (.node i ty p cs) := by
  intro S par idx pn hnd hpar hidx habs hparNot
  rw [nodeIds_def] at hnd habs hparNot
  simp only [children_node, ident_node, List.nodup_cons, List.mem_cons] at hnd habs hparNot
  have hiP : i ≠ par.ident := fun hc => hparNot (Or.inl hc.symm)
  have h1 : applyM S (.create (.node i ty p cs)) =
      .ok ((i, ⟨ty, p, []⟩) :: S) := applyM_create_ok (by rw [ident_node]; exact habs i (Or.inl rfl))
  have hparS1 : lookupN par.ident ((i, ⟨ty, p, []⟩) :: S) = some pn := by
    rw [lookupN_cons, if_neg hiP]; exact hpar
  have h2 : applyM ((i, ⟨ty, p, []⟩) :: S) (.insert par (.node i ty p cs) idx) =
      .ok (setNode par.ident
        (fun h => ⟨h.ty, h.props, insIdx h.children idx i⟩) ((i, ⟨ty, p, []⟩) :: S)) := by
    have := applyM_insert_ok (c := .node i ty p cs) hparS1
      (by rw [ident_node, lookupN_cons]; simp) (le_of_eq hidx)
    simpa using this
  set S2 := setNode par.ident
    (fun h => ⟨h.ty, h.props, insIdx h.children idx i⟩) ((i, ⟨ty, p, []⟩) :: S) with hS2
  have hparS2 : lookupN par.ident S2 = some ⟨pn.ty, pn.props, pn.children ++ [i]⟩ := by
    rw [hS2, lookupN_setNode, if_pos rfl, hparS1]
    simp [hidx, insIdx_len]
  have hiS2 : lookupN i S2 = some ⟨ty, p, []⟩ := by
    rw [hS2, lookupN_setNode, if_neg hiP, lookupN_cons, if_pos rfl]
  obtain ⟨S3, h3, hpost3⟩ := ih S2 (.node i ty p cs) 0 ⟨ty, p, []⟩ hnd.2
    (by rw [ident_node]; exact hiS2) rfl
    (fun k hk => by
      have hki : ¬ k = i := fun hc => hnd.1 (hc ▸ hk)
      have hkp : ¬ k = par.ident := fun hc => hparNot (Or.inr (hc ▸ hk))
      rw [hS2, lookupN_setNode, if_neg hkp, lookupN_cons, if_neg (fun hc => hki hc.symm)]
      exact habs k (Or.inr hk))
    (by rw [ident_node]; exact hnd.1)
  refine ⟨S3, ?_, ?_⟩
  · show applyList (.create (.node i ty p cs) :: .insert par (.node i ty p cs) idx ::
      createSubF (.node i ty p cs) cs 0) S = .ok S3
    rw [applyList_cons_ok _ h1, applyList_cons_ok _ h2]
    exact h3
  · intro k
    rw [hpost3 k]
    simp only [ident_node]
    by_cases hkp : k = par.ident
    · rw [if_neg (fun hc : k = i => hiP (hc ▸ hkp))]
      rw [if_neg (fun hc => hparNot (Or.inr (hkp ▸ hc))), hkp, hparS2, if_pos rfl]
    · by_cases hki : k = i
      · subst hki
        rw [if_pos rfl, if_neg hkp,
          if_pos (show k ∈ nodeIds (.node k ty p cs) from by rw [nodeIds_def]; simp)]
        rw [show lookupN k (reify (VTree.node k ty p cs)) =
          some ⟨ty, p, idents cs⟩ from by
            have := lookupN_reify_self (VTree.node k ty p cs)
            simpa using this]
        simp
      · by_cases hkc : k ∈ forestIds cs
        · rw [if_neg hki, if_pos hkc, if_neg hkp, if_pos (by rw [nodeIds_def]; simp [hkc])]
          rw [show reify (.node i ty p cs) = (i, ⟨ty, p, idents cs⟩) :: reifyF cs from by
            rw [reify_def]; simp]
          rw [lookupN_cons, if_neg (fun hc => hki hc.symm)]
        · rw [if_neg hki, if_neg hkc, if_neg hkp,
            if_neg (by rw [nodeIds_def]; simp [hki, hkc]),
            hS2, lookupN_setNode, if_neg hkp, lookupN_cons, if_neg (fun hc => hki hc.symm)]

theorem create_step_nil : CreQ .nil := by
  intro S par j pn _ hpar _ _ _
  refine ⟨S, rfl, fun k => ?_⟩
  by_cases hkp : k = par.ident
  · simp [hkp, hpar]
  · simp [hkp]

theorem create_step_cons (t : VTree) (ts : VForest) (iht : CreP t) (ihts : CreQ ts) :
    CreQ (.cons t ts) := by
  intro S par j pn hnd hpar hj habs hparNot
  simp only [forestIds_cons, List.nodup_append, List.mem_append] at hnd habs hparNot
  obtain ⟨S1, h1, hpost1⟩ := iht S par j pn hnd.1 hpar hj
    (fun k hk => habs k (Or.inl hk)) (fun hc => hparNot (Or.inl hc))
  obtain ⟨S2, h2, hpost2⟩ := ihts S1 par (j + 1) ⟨pn.ty, pn.props, pn.children ++ [t.ident]⟩
    hnd.2.1
    (by rw [hpost1 par.ident, if_pos rfl])
    (by simp [hj])
    (fun k hk => by
      rw [hpost1 k, if_neg (fun hc : k = par.ident => hparNot (Or.inr (hc ▸ hk))),
        if_neg (fun hc => hnd.2.2 hc hk)]
      exact habs k (Or.inr hk))
    (fun hc => hparNot (Or.inr hc))
  refine ⟨S2, ?_, ?_⟩
  · show applyList (createSub par t j ++ createSubF par ts (j + 1)) S = .ok S2
    rw [applyList_append_ok _ h1, h2]
  · intro k
    rw [hpost2 k]
    by_cases hkp : k = par.ident
    · simp [hkp, List.append_assoc]
    · rw [if_neg hkp, if_neg hkp]
      simp only [forestIds_cons, List.mem_append]
      by_cases hk2 : k ∈ forestIds ts
      · rw [if_pos hk2, if_pos (Or.inr hk2)]
        have hnt : k ∉ nodeIds t := fun hc => hnd.2.2 hc hk2
        show lookupN k (reifyF ts) = lookupN k (reify t ++ reifyF ts)
        rw [lookupN_append_none _ (lookupN_reify_none hnt)]
      · rw [if_neg hk2, hpost1 k, if_neg hkp]
        by_cases hk1 : k ∈ nodeIds t
        · rw [if_pos hk1, if_pos (Or.inl hk1)]
          show lookupN k (reify t) = lookupN k (reify t ++ reifyF ts)
          rcases Option.isSome_iff_exists.mp
            ((lookupN_isSome_iff k (reify t)).mpr (by rw [reify_keys_T]; exact hk1)) with ⟨v, hv⟩
          rw [hv, lookupN_append_some _ hv]
        · rw [if_neg hk1, if_neg (not_or.mpr ⟨hk1, hk2⟩)]

theorem createSub_ok (t : VTree) : CreP t :=
  tree_induction create_step_node create_step_nil create_step_cons t

theorem createSubF_ok (ts : VForest) : CreQ ts :=
  tree_induction_forest create_step_node create_step_nil create_step_cons ts

/-! ### Correctness of the Remove phase -/

theorem enum_reverse_snoc (l : List VTree) (x : VTree) :
    (l ++ [x]).enum.reverse = (l.length, x) :: l.enum.reverse := by
  rw [List.enum_append]
  simp [List.enumFrom]

theorem removesRev_ok (par : VTree) (l : List VTree) : ∀ (S : HostState) (pn : HostNode),
    lookupN par.ident S = some pn → pn.children.length = l.length →
    ∃ S', applyList (removesRev par l.enum.reverse) S = .ok S' ∧
      ∀ k, lookupN k S' = if k = par.ident then some ⟨pn.ty, pn.props, []⟩
        else lookupN k S := by
  induction l using List.reverseRecOn with
  | nil =>
      intro S pn hpar hlen
      refine ⟨S, rfl, fun k => ?_⟩
      by_cases hkp : k = par.ident
      · have : pn.children = [] := List.length_eq_zero.mp hlen
        simp [hkp, hpar, ← this]
      · simp [hkp]
  | append_singleton l' x ih =>
      intro S pn hpar hlen
      rw [List.length_append, List.length_singleton] at hlen
      have hstep : applyM S (.remove par x l'.length) =
          .ok (setNode par.ident (fun h => ⟨h.ty, h.props, h.children.eraseIdx l'.length⟩) S) :=
        applyM_remove_ok hpar (by omega)
      set S1 := setNode par.ident
        (fun h => ⟨h.ty, h.props, h.children.eraseIdx l'.length⟩) S with hS1
      have hparS1 : lookupN par.ident S1 =
          some ⟨pn.ty, pn.props, pn.children.eraseIdx l'.length⟩ := by
        rw [hS1, lookupN_setNode, if_pos rfl, hpar]; rfl
      obtain ⟨S2, h2, hpost2⟩ := ih S1 ⟨pn.ty, pn.props, pn.children.eraseIdx l'.length⟩
        hparS1 (by simp [List.length_eraseIdx, hlen])
      refine ⟨S2, ?_, ?_⟩
      · rw [enum_reverse_snoc,
          show removesRev par ((l'.length, x) :: l'.enum.reverse) =
            .remove par x l'.length :: removesRev par l'.enum.reverse from rfl,
          applyList_cons_ok _ hstep]
        exact h2
      · intro k
        rw [hpost2 k]
        by_cases hkp : k = par.ident
        · simp [hkp]
        · rw [if_neg hkp, if_neg hkp, hS1, lookupN_setNode, if_neg hkp]

/-! ### Helpers for the main induction -/


theorem tsizeT_pos (t : VTree) : 0 < tsizeT t := by
  cases t with
  | node i ty p cs => rw [tsizeT]; omega

theorem tsizeT_le_of_mem {t : VTree} {ts : VForest} (h : t ∈ ts.toList) :
    tsizeT t ≤ tsizeF ts := by
  induction ts using forest_induction with
  | nil => simp at h
  | cons u ts ih =>
      rcases (by simpa using h) with rfl | h'
      · rw [tsizeF]; omega
      · have := ih h'
        rw [tsizeF]; omega

theorem idents_length (ts : VForest) : (idents ts).length = ts.toList.length := by
  induction ts using forest_induction with
  | nil => rfl
  | cons t ts ih => simp [ih]

theorem exists_of_mem_idents {k : Nat} {ts : VForest} (h : k ∈ idents ts) :
    ∃ t ∈ ts.toList, t.ident = k := by
  induction ts using forest_induction with
  | nil => simp at h
  | cons t ts ih =>
      rcases (by simpa using h) with h1 | h2
      · exact ⟨t, by simp, h1.symm⟩
      · rcases ih h2 with ⟨u, hu, he⟩
        exact ⟨u, by simp [hu], he⟩


theorem mem_matchedOldIds {osAll ns : VForest} {k : Nat} :
    k ∈ matchedOldIds osAll ns ↔
      ∃ nc ∈ ns.toList, ∃ oc, findByIdent nc.ident osAll = some oc ∧ k ∈ nodeIds oc := by
  simp only [matchedOldIds, List.mem_flatMap]
  constructor
  · rintro ⟨nc, hnc, hk⟩
    cases hfind : findByIdent nc.ident osAll with
    | none => rw [hfind] at hk; simp at hk
    | some oc => rw [hfind] at hk; exact ⟨nc, hnc, oc, hfind, hk⟩
  · rintro ⟨nc, hnc, oc, hfind, hk⟩
    exact ⟨nc, hnc, by rw [hfind]; exact hk⟩

theorem matchedOldIds_cons (osAll : VForest) (nn : VTree) (ns' : VForest) :
    matchedOldIds osAll (.cons nn ns') =
      (match findByIdent nn.ident osAll with
       | some oc => nodeIds oc
       | none => []) ++ matchedOldIds osAll ns' := by
  simp [matchedOldIds]

theorem matched_pair_props {osAll nsAll : VForest} {nc oc : VTree}
    (hsim : simF osAll nsAll = true) (hndN : (forestIds nsAll).Nodup)
    (hnc : nc ∈ nsAll.toList) (hf : findByIdent nc.ident osAll = some oc) :
    simT oc nc = true ∧ ∀ k ∈ nodeIds oc, k ∈ forestIds nsAll → k ∈ nodeIds nc := by
  obtain ⟨hmem, hid⟩ := findByIdent_some hf
  have hfn : findByIdent oc.ident nsAll = some nc := by
    rw [hid]; exact findByIdent_of_mem (idents_nodup hndN) hnc
  exact simF_matched hsim hmem hfn

/-- Any old tree that shares an identity with a new tree `nn` is matched (by
`findByIdent` against the whole new forest) to `nn` itself. -/
theorem fresh_not_in_tail {osAll nsAll : VForest} (hsim : simF osAll nsAll = true)
    (hndN : (forestIds nsAll).Nodup) {nn : VTree} (hnn : nn ∈ nsAll.toList)
    {k : Nat} (hknn : k ∈ nodeIds nn) {oc' : VTree} (hoc' : oc' ∈ osAll.toList)
    (hk' : k ∈ nodeIds oc') : findByIdent oc'.ident nsAll = some nn := by
  cases hfind : findByIdent oc'.ident nsAll with
  | none => exact absurd (mem_forestIds_of_mem hnn hknn) (simF_unmatched hsim hoc' hfind k hk')
  | some nc' =>
      have hp := simF_matched hsim hoc' hfind
      have hknc : k ∈ nodeIds nc' := hp.2 k hk' (mem_forestIds_of_mem hnn hknn)
      have heq : nn = nc' := mem_unique_tree hndN hnn (findByIdent_some hfind).1 hknn hknc
      rw [heq]

/-- Two trees of a Nodup forest carrying the same identity are equal. -/
theorem ident_unique_tree {ts : VForest} {t t' : VTree} (h : (forestIds ts).Nodup)
    (ht : t ∈ ts.toList) (ht' : t' ∈ ts.toList) (hid : t.ident = t'.ident) : t = t' :=
  mem_unique_tree h ht ht' (ident_mem_nodeIds t) (hid ▸ ident_mem_nodeIds t')

/-- Delete phases for a list of detached subtrees, in sequence. -/
theorem deleteSubs_ok (l : List VTree) : ∀ S : HostState, (l.flatMap nodeIds).Nodup →
    (∀ k ∈ l.flatMap nodeIds, (lookupN k S).isSome = true) →
    ∃ S', applyList (l.flatMap deleteSub) S = .ok S' ∧
      ∀ k, lookupN k S' = if k ∈ l.flatMap nodeIds then none else lookupN k S := by
  induction l with
  | nil =>
      intro S _ _
      exact ⟨S, rfl, fun k => by simp⟩
  | cons t l ih =>
      intro S hnd hpres
      simp only [List.flatMap_cons, List.nodup_append] at hnd
      obtain ⟨S1, h1, hpost1⟩ := deleteSub_ok t S hnd.1
        (fun k hk => hpres k (by simp [hk]))
      obtain ⟨S2, h2, hpost2⟩ := ih S1 hnd.2.1 (fun k hk => by
        rw [hpost1 k, if_neg (fun hc => hnd.2.2 hc hk)]
        exact hpres k (by simp [hk]))
      refine ⟨S2, ?_, ?_⟩
      · rw [List.flatMap_cons, applyList_append_ok _ h1, h2]
      · intro k
        rw [hpost2 k]
        simp only [List.flatMap_cons, List.mem_append]
        by_cases hk2 : k ∈ l.flatMap nodeIds
        · simp [hk2]
        · rw [if_neg hk2, hpost1 k]
          by_cases hk1 : k ∈ nodeIds t <;> simp [hk1, hk2]

theorem forestIds_flat (ts : VForest) : forestIds ts = ts.toList.flatMap nodeIds := by
  induction ts using forest_induction with
  | nil => rfl
  | cons t ts ih => simp [ih]

/-! ### The differ's node-level correctness statement -/


theorem insertsList_nil (par : VTree) (osAll : VForest) (j : Nat) :
    insertsList par osAll .nil j = [] := rfl

theorem insertsList_cons (par : VTree) (osAll : VForest) (nn : VTree) (ns' : VForest)
    (j : Nat) :
    insertsList par osAll (.cons nn ns') j =
      (match findByIdent nn.ident osAll with
       | some oc => .insert par nn j :: diffNode par oc nn j
       | none => createSub par nn j) ++ insertsList par osAll ns' (j + 1) := rfl

theorem diffPairs_cons (par : VTree) (o : VTree) (os' : VForest) (nn : VTree)
    (ns' : VForest) (j : Nat) :
    diffPairs par (.cons o os') (.cons nn ns') j =
      diffNode par o nn j ++ diffPairs par os' ns' (j + 1) := rfl

theorem diffNode_eq (par : VTree) (oi oty oprops : Nat) (oCs : VForest)
    (ni nty nprops : Nat) (nCs : VForest) (idx : Nat) :
    diffNode par (.node oi oty oprops oCs) (.node ni nty nprops nCs) idx =
      (if oprops = nprops then []
        else [.update par (.node oi oty oprops oCs) (.node ni nty nprops nCs) idx]) ++
      (if idents oCs = idents nCs then diffPairs (.node ni nty nprops nCs) oCs nCs 0
       else removesList (.node ni nty nprops nCs) oCs ++ deletesList nCs oCs ++
         insertsList (.node ni nty nprops nCs) oCs nCs 0) := rfl

/-! ### Correctness of the Insert/reattach phase -/

theorem insertsList_ok (osAll nsAll : VForest) (par : VTree)
    (hsim : simF osAll nsAll = true)
    (hndO : (forestIds osAll).Nodup) (hndN : (forestIds nsAll).Nodup)
    (hparO : par.ident ∉ forestIds osAll) (hparN : par.ident ∉ forestIds nsAll) :
    ∀ ns : VForest, (∀ nc ∈ ns.toList, DN nc) →
    (∀ nc ∈ ns.toList, nc ∈ nsAll.toList) → (forestIds ns).Nodup →
    ∀ (S : HostState) (pn : HostNode) (j : Nat),
    lookupN par.ident S = some pn → pn.children.length = j →
    (∀ nc ∈ ns.toList, ∀ oc, findByIdent nc.ident osAll = some oc →
      ∀ k ∈ nodeIds oc, lookupN k S = lookupN k (reify oc)) →
    (∀ nc ∈ ns.toList, findByIdent nc.ident osAll = none →
      ∀ k ∈ nodeIds nc, lookupN k S = none) →
    (∀ nc ∈ ns.toList, ∀ oc, findByIdent nc.ident osAll = some oc →
      ∀ k ∈ nodeIds nc, k ∉ nodeIds oc → lookupN k S = none) →
    ∃ S', applyList (insertsList par osAll ns j) S = .ok S' ∧
      ∀ k, lookupN k S' =
        if k = par.ident then some ⟨pn.ty, pn.props, pn.children ++ idents ns⟩
        else if k ∈ forestIds ns then lookupN k (reifyF ns)
        else if k ∈ matchedOldIds osAll ns then none
        else lookupN k S := by
  intro ns
  induction ns using forest_induction with
  | nil =>
      intro _ _ _ S pn j hpar _ _ _ _
      refine ⟨S, rfl, fun k => ?_⟩
      by_cases hkp : k = par.ident
      · simp [hkp, hpar]
      · simp [hkp, matchedOldIds]
  | cons nn ns' ih =>
      intro hDN hsub hnds S pn j hpar hlen hOK hfreshU hfreshM
      have hnds' : (nodeIds nn).Nodup ∧ (forestIds ns').Nodup ∧
          (nodeIds nn).Disjoint (forestIds ns') := by
        simpa [List.nodup_append] using hnds
      have hndnn : (nodeIds nn).Nodup := hnds'.1
      have hnnm : nn ∈ (VForest.cons nn ns').toList := by simp
      have hnnAll : nn ∈ nsAll.toList := hsub nn hnnm
      have hsub' : ∀ nc ∈ ns'.toList, nc ∈ nsAll.toList := fun nc h => hsub nc (by simp [h])
      have hdisj : (nodeIds nn).Disjoint (forestIds ns') := hnds'.2.2
      have hparnn : par.ident ∉ nodeIds nn :=
        fun hc => hparN (mem_forestIds_of_mem hnnAll hc)
      have hheadNotMatched : ∀ k ∈ nodeIds nn, k ∉ matchedOldIds osAll ns' := by
        intro k hknn hmem
        rcases mem_matchedOldIds.mp hmem with ⟨nc, hncm, occ, hfcc, hkcc⟩
        have hone := fresh_not_in_tail hsim hndN hnnAll hknn (findByIdent_some hfcc).1 hkcc
        have htwo : findByIdent occ.ident nsAll = some nc := by
          rw [(findByIdent_some hfcc).2]
          exact findByIdent_of_mem (idents_nodup hndN) (hsub' nc hncm)
        rw [hone] at htwo
        injection htwo with htwo
        subst htwo
        exact hdisj hknn (mem_forestIds_of_mem hncm hknn)
      cases hfind : findByIdent nn.ident osAll with
      | some oc =>
          obtain ⟨hocm, hoci⟩ := findByIdent_some hfind
          have hpair := matched_pair_props hsim hndN hnnAll hfind
          have hparoc : par.ident ∉ nodeIds oc :=
            fun hc => hparO (mem_forestIds_of_mem hocm hc)
          have hchS : (lookupN nn.ident S).isSome = true := by
            rw [← hoci, hOK nn hnnm oc hfind oc.ident (ident_mem_nodeIds oc),
              lookupN_reify_self]
            rfl
          have hstep : applyM S (.insert par nn j) = .ok (setNode par.ident
              (fun h => ⟨h.ty, h.props, insIdx h.children j nn.ident⟩) S) :=
            applyM_insert_ok hpar hchS (le_of_eq hlen.symm)
          set S1 := setNode par.ident
            (fun h => ⟨h.ty, h.props, insIdx h.children j nn.ident⟩) S with hS1
          have hparS1 : lookupN par.ident S1 =
              some ⟨pn.ty, pn.props, pn.children ++ [nn.ident]⟩ := by
            rw [hS1, lookupN_setNode, if_pos rfl, hpar]
            simp [← hlen, insIdx_len]
          have hS1else : ∀ k, k ≠ par.ident → lookupN k S1 = lookupN k S := fun k hk => by
            rw [hS1, lookupN_setNode, if_neg hk]
          obtain ⟨S2, h2, hpost2⟩ := hDN nn hnnm oc par j S1 hpair.1
            (nodeIds_nodup_of_mem hndO hocm) hndnn
            (fun k hk => by
              rw [hS1else k (fun hc => hparoc (hc ▸ hk))]
              exact hOK nn hnnm oc hfind k hk)
            (fun k hk hko => by
              rw [hS1else k (fun hc => hparnn (hc ▸ hk))]
              exact hfreshM nn hnnm oc hfind k hk hko)
          obtain ⟨S3, h3, hpost3⟩ := ih (fun nc h => hDN nc (by simp [h])) hsub'
            hnds'.2.1 S2 ⟨pn.ty, pn.props, pn.children ++ [nn.ident]⟩ (j + 1)
            (by rw [hpost2 par.ident, if_neg hparnn, if_neg hparoc]; exact hparS1)
            (by simp [hlen])
            (fun nc hncm oc' hf' k hk => by
              have hknotnn : k ∉ nodeIds nn := fun hknn =>
                hheadNotMatched k hknn (mem_matchedOldIds.mpr ⟨nc, hncm, oc', hf', hk⟩)
              have hknotoc : k ∉ nodeIds oc := fun hkoc => by
                have hoo : oc = oc' :=
                  mem_unique_tree hndO hocm (findByIdent_some hf').1 hkoc hk
                have hii : nn.ident = nc.ident := by
                  rw [← hoci, hoo, (findByIdent_some hf').2]
                exact hdisj (ident_mem_nodeIds nn)
                  (by rw [hii]; exact mem_forestIds_of_mem hncm (ident_mem_nodeIds nc))
              rw [hpost2 k, if_neg hknotnn, if_neg hknotoc, hS1else k
                  (fun hc => hparO (hc ▸ mem_forestIds_of_mem (findByIdent_some hf').1 hk))]
              exact hOK nc (by simp [hncm]) oc' hf' k hk)
            (fun nc hncm hf' k hk => by
              have hknotnn : k ∉ nodeIds nn :=
                fun hknn => hdisj hknn (mem_forestIds_of_mem hncm hk)
              rw [hpost2 k, if_neg hknotnn]
              by_cases hkoc : k ∈ nodeIds oc
              · rw [if_pos hkoc]
              · rw [if_neg hkoc, hS1else k
                  (fun hc => hparN (hc ▸ mem_forestIds_of_mem (hsub' nc hncm) hk))]
                exact hfreshU nc (by simp [hncm]) hf' k hk)
            (fun nc hncm oc' hf' k hk hko => by
              have hknotnn : k ∉ nodeIds nn :=
                fun hknn => hdisj hknn (mem_forestIds_of_mem hncm hk)
              rw [hpost2 k, if_neg hknotnn]
              by_cases hkoc : k ∈ nodeIds oc
              · rw [if_pos hkoc]
              · rw [if_neg hkoc, hS1else k
                  (fun hc => hparN (hc ▸ mem_forestIds_of_mem (hsub' nc hncm) hk))]
                exact hfreshM nc (by simp [hncm]) oc' hf' k hk hko)
          refine ⟨S3, ?_, ?_⟩
          · rw [insertsList_cons, hfind,
              show (M.insert par nn j :: diffNode par oc nn j) ++
                insertsList par osAll ns' (j + 1) =
                M.insert par nn j ::
                  (diffNode par oc nn j ++ insertsList par osAll ns' (j + 1)) from rfl,
              applyList_cons_ok _ hstep, applyList_append_ok _ h2]
            exact h3
          · intro k
            rw [hpost3 k]
            by_cases hkp : k = par.ident
            · rw [if_pos hkp, if_pos hkp]
              simp [List.append_assoc]
            · rw [if_neg hkp, if_neg hkp]
              simp only [forestIds_cons, List.mem_append, matchedOldIds_cons, hfind]
              by_cases hk2 : k ∈ forestIds ns'
              · rw [if_pos hk2, if_pos (Or.inr hk2)]
                show _ = lookupN k (reify nn ++ reifyF ns')
                rw [lookupN_append_none _ (lookupN_reify_none (fun hc => hdisj hc hk2))]
              · rw [if_neg hk2]
                by_cases hk1 : k ∈ nodeIds nn
                · rw [if_neg (hheadNotMatched k hk1), if_pos (Or.inl hk1),
                    hpost2 k, if_pos hk1]
                  exact (lookupN_reifyF_of_mem hnds hnnm hk1).symm
                · rw [if_neg (not_or.mpr ⟨hk1, hk2⟩)]
                  by_cases hk3 : k ∈ matchedOldIds osAll ns'
                  · rw [if_pos hk3, if_pos (Or.inr hk3)]
                  · rw [if_neg hk3]
                    by_cases hk4 : k ∈ nodeIds oc
                    · rw [if_pos (Or.inl hk4), hpost2 k, if_neg hk1, if_pos hk4]
                    · rw [if_neg (not_or.mpr ⟨hk4, hk3⟩), hpost2 k, if_neg hk1,
                        if_neg hk4, hS1else k hkp]
      | none =>
          obtain ⟨S1, h1, hpost1⟩ := createSub_ok nn S par j pn hndnn hpar hlen.symm
            (hfreshU nn hnnm hfind) hparnn
          have hS1par : lookupN par.ident S1 =
              some ⟨pn.ty, pn.props, pn.children ++ [nn.ident]⟩ := by
            rw [hpost1 par.ident, if_pos rfl]
          have hS1nn : ∀ k ∈ nodeIds nn, lookupN k S1 = lookupN k (reify nn) := fun k hk => by
            rw [hpost1 k, if_neg (fun hc : k = par.ident => hparnn (hc ▸ hk)), if_pos hk]
          have hS1else : ∀ k, k ≠ par.ident → k ∉ nodeIds nn →
              lookupN k S1 = lookupN k S := fun k hk1 hk2 => by
            rw [hpost1 k, if_neg hk1, if_neg hk2]
          obtain ⟨S3, h3, hpost3⟩ := ih (fun nc h => hDN nc (by simp [h])) hsub'
            hnds'.2.1 S1 ⟨pn.ty, pn.props, pn.children ++ [nn.ident]⟩ (j + 1)
            hS1par
            (by simp [hlen])
            (fun nc hncm oc' hf' k hk => by
              have hknotnn : k ∉ nodeIds nn := fun hknn =>
                hheadNotMatched k hknn (mem_matchedOldIds.mpr ⟨nc, hncm, oc', hf', hk⟩)
              rw [hS1else k
                (fun hc => hparO (hc ▸ mem_forestIds_of_mem (findByIdent_some hf').1 hk))
                hknotnn]
              exact hOK nc (by simp [hncm]) oc' hf' k hk)
            (fun nc hncm hf' k hk => by
              have hknotnn : k ∉ nodeIds nn :=
                fun hknn => hdisj hknn (mem_forestIds_of_mem hncm hk)
              rw [hS1else k
                (fun hc => hparN (hc ▸ mem_forestIds_of_mem (hsub' nc hncm) hk)) hknotnn]
              exact hfreshU nc (by simp [hncm]) hf' k hk)
            (fun nc hncm oc' hf' k hk hko => by
              have hknotnn : k ∉ nodeIds nn :=
                fun hknn => hdisj hknn (mem_forestIds_of_mem hncm hk)
              rw [hS1else k
                (fun hc => hparN (hc ▸ mem_forestIds_of_mem (hsub' nc hncm) hk)) hknotnn]
              exact hfreshM nc (by simp [hncm]) oc' hf' k hk hko)
          refine ⟨S3, ?_, ?_⟩
          · rw [insertsList_cons, hfind, applyList_append_ok _ h1]
            exact h3
          · intro k
            rw [hpost3 k]
            by_cases hkp : k = par.ident
            · rw [if_pos hkp, if_pos hkp]
              simp [List.append_assoc]
            · rw [if_neg hkp, if_neg hkp]
              simp only [forestIds_cons, List.mem_append, matchedOldIds_cons, hfind,
                List.nil_append]
              by_cases hk2 : k ∈ forestIds ns'
              · rw [if_pos hk2, if_pos (Or.inr hk2)]
                show _ = lookupN k (reify nn ++ reifyF ns')
                rw [lookupN_append_none _ (lookupN_reify_none (fun hc => hdisj hc hk2))]
              · rw [if_neg hk2]
                by_cases hk1 : k ∈ nodeIds nn
                · rw [if_neg (hheadNotMatched k hk1), if_pos (Or.inl hk1),
                    hS1nn k hk1]
                  exact (lookupN_reifyF_of_mem hnds hnnm hk1).symm
                · rw [if_neg (not_or.mpr ⟨hk1, hk2⟩)]
                  by_cases hk3 : k ∈ matchedOldIds osAll ns'
                  · rw [if_pos hk3, if_pos hk3]
                  · rw [if_neg hk3, if_neg hk3, hS1else k hkp hk1]

/-! ### Correctness of the in-place fast path -/

theorem diffPairs_ok (osAll nsAll : VForest) (par : VTree)
    (hsim : simF osAll nsAll = true)
    (hndO : (forestIds osAll).Nodup) (hndN : (forestIds nsAll).Nodup) :
    ∀ os : VForest, ∀ ns : VForest, (∀ nc ∈ ns.toList, DN nc) →
    (∀ oc ∈ os.toList, oc ∈ osAll.toList) → (∀ nc ∈ ns.toList, nc ∈ nsAll.toList) →
    (forestIds os).Nodup → (forestIds ns).Nodup →
    idents os = idents ns →
    ∀ (S : HostState) (j : Nat),
    (∀ oc ∈ os.toList, ∀ k ∈ nodeIds oc, lookupN k S = lookupN k (reify oc)) →
    (∀ k ∈ forestIds ns, k ∉ forestIds os → lookupN k S = none) →
    ∃ S', applyList (diffPairs par os ns j) S = .ok S' ∧
      ∀ k, lookupN k S' = if k ∈ forestIds ns then lookupN k (reifyF ns)
        else if k ∈ forestIds os then none else lookupN k S := by
  intro os
  induction os using forest_induction with
  | nil =>
      intro ns _ _ _ _ _ hids S j _ _
      cases ns with
      | nil => exact ⟨S, rfl, fun k => by simp⟩
      | cons nn ns' => exact absurd hids (by simp)
  | cons oc os' ih =>
      intro ns hDN hsubO hsubN hndOs hndNs hids S j hOK hfresh
      cases ns with
      | nil => exact absurd hids (by simp)
      | cons nn ns' =>
          have hid1 : oc.ident = nn.ident := by
            have := hids; simp only [idents_cons, List.cons.injEq] at this; exact this.1
          have hid2 : idents os' = idents ns' := by
            have := hids; simp only [idents_cons, List.cons.injEq] at this; exact this.2
          have hndOs' : (nodeIds oc).Nodup ∧ (forestIds os').Nodup ∧
              (nodeIds oc).Disjoint (forestIds os') := by
            simpa [List.nodup_append] using hndOs
          have hndNs' : (nodeIds nn).Nodup ∧ (forestIds ns').Nodup ∧
              (nodeIds nn).Disjoint (forestIds ns') := by
            simpa [List.nodup_append] using hndNs
          have hocm : oc ∈ osAll.toList := hsubO oc (by simp)
          have hnnm : nn ∈ (VForest.cons nn ns').toList := by simp
          have hnnAll : nn ∈ nsAll.toList := hsubN nn hnnm
          have hsubO' : ∀ x ∈ os'.toList, x ∈ osAll.toList := fun x h => hsubO x (by simp [h])
          have hsubN' : ∀ x ∈ ns'.toList, x ∈ nsAll.toList := fun x h => hsubN x (by simp [h])
          have hfOc : findByIdent oc.ident nsAll = some nn := by
            rw [hid1]; exact findByIdent_of_mem (idents_nodup hndN) hnnAll
          have hpair := simF_matched hsim hocm hfOc
          have hnnNotOs' : ∀ k, k ∈ nodeIds nn → k ∉ forestIds os' := by
            intro k hknn hmem
            rcases (mem_forestIds_iff k os').mp hmem with ⟨occ, hoccm, hk'⟩
            have h1 := fresh_not_in_tail hsim hndN hnnAll hknn (hsubO' occ hoccm) hk'
            have h2 : nn.ident = occ.ident := (findByIdent_some h1).2
            exact hndOs'.2.2 (ident_mem_nodeIds oc)
              (by rw [hid1, h2]; exact mem_forestIds_of_mem hoccm (ident_mem_nodeIds occ))
          obtain ⟨S2, h2, hpost2⟩ := hDN nn hnnm oc par j S hpair.1
            hndOs'.1 hndNs'.1
            (hOK oc (by simp))
            (fun k hk hko => hfresh k (by simp [hk]) (by
              simp only [forestIds_cons, List.mem_append, not_or]
              exact ⟨hko, hnnNotOs' k hk⟩))
          obtain ⟨S3, h3, hpost3⟩ := ih ns' (fun nc h => hDN nc (by simp [h]))
            hsubO' hsubN' hndOs'.2.1 hndNs'.2.1 hid2 S2 (j + 1)
            (fun occ hoccm k hk => by
              have hknotnn : k ∉ nodeIds nn :=
                fun hknn => hnnNotOs' k hknn (mem_forestIds_of_mem hoccm hk)
              have hknotoc : k ∉ nodeIds oc :=
                fun hkoc => hndOs'.2.2 hkoc (mem_forestIds_of_mem hoccm hk)
              rw [hpost2 k, if_neg hknotnn, if_neg hknotoc]
              exact hOK occ (by simp [hoccm]) k hk)
            (fun k hk hko => by
              have hknotnn : k ∉ nodeIds nn := fun hknn => hndNs'.2.2 hknn hk
              rw [hpost2 k, if_neg hknotnn]
              by_cases hkoc : k ∈ nodeIds oc
              · rw [if_pos hkoc]
              · rw [if_neg hkoc]
                exact hfresh k (by simp [hk]) (by
                  simp only [forestIds_cons, List.mem_append, not_or]
                  exact ⟨hkoc, hko⟩))
          refine ⟨S3, ?_, ?_⟩
          · rw [diffPairs_cons, applyList_append_ok _ h2]
            exact h3
          · intro k
            rw [hpost3 k]
            simp only [forestIds_cons, List.mem_append]
            by_cases hk2 : k ∈ forestIds ns'
            · rw [if_pos hk2, if_pos (Or.inr hk2)]
              show _ = lookupN k (reify nn ++ reifyF ns')
              rw [lookupN_append_none _ (lookupN_reify_none (fun hc => hndNs'.2.2 hc hk2))]
            · rw [if_neg hk2]
              by_cases hk1 : k ∈ nodeIds nn
              · rw [if_neg (hnnNotOs' k hk1), hpost2 k, if_pos hk1, if_pos (Or.inl hk1)]
                exact (lookupN_reifyF_of_mem hndNs hnnm hk1).symm
              · rw [if_neg (not_or.mpr ⟨hk1, hk2⟩)]
                by_cases hk3 : k ∈ forestIds os'
                · rw [if_pos hk3, if_pos (Or.inr hk3)]
                · rw [if_neg hk3]
                  by_cases hk4 : k ∈ nodeIds oc
                  · rw [if_pos (Or.inl hk4), hpost2 k, if_neg hk1, if_pos hk4]
                  · rw [if_neg (not_or.mpr ⟨hk4, hk3⟩), hpost2 k, if_neg hk1, if_neg hk4]

/-! ### The main differ correctness theorem -/

theorem sublist_flatMap_filter (p : VTree → Bool) (f : VTree → List Nat) (l : List VTree) :
    ((l.filter p).flatMap f).Sublist (l.flatMap f) := by
  induction l with
  | nil => simp
  | cons x l ih =>
      by_cases hp : p x = true
      · simpa [List.filter_cons, hp] using List.Sublist.append_left ih (f x)
      · simp only [List.filter_cons, hp, if_false, List.flatMap_cons]
        exact ih.trans (List.sublist_append_right _ _)

theorem dn_strong : ∀ N : Nat, ∀ n : VTree, tsizeT n ≤ N → DN n := by
  intro N
  induction N with
  | zero =>
      intro n hn
      exact absurd hn (by have := tsizeT_pos n; omega)
  | succ N ihN =>
      intro n hn o par idx S hsim hndO hndN hSub hFresh
      cases o with
      | node oi oty oprops oCs =>
      cases n with
      | node ni nty nprops nCs =>
      simp only [simT_iff, ident_node, ty_node, children_node] at hsim
      obtain ⟨hid, hty, hsimF⟩ := hsim
      subst hid
      subst hty
      rw [nodeIds_def] at hndO hndN
      simp only [ident_node, children_node, List.nodup_cons] at hndO hndN
      obtain ⟨hoO, hndOCs⟩ := hndO
      obtain ⟨hnN, hndNCs⟩ := hndN
      rw [tsizeT] at hn
      have hDNcs : ∀ nc ∈ nCs.toList, DN nc := fun nc hm =>
        ihN nc (by have := tsizeT_le_of_mem hm; omega)
      have hSubOi : lookupN oi S = some ⟨oty, oprops, idents oCs⟩ := by
        rw [hSub oi (by rw [nodeIds_def]; simp)]
        have := lookupN_reify_self (.node oi oty oprops oCs)
        simpa using this
      have hOldOc : ∀ oc ∈ oCs.toList, ∀ k ∈ nodeIds oc,
          lookupN k S = lookupN k (reify oc) := by
        intro oc hm k hk
        have hne : k ≠ oi := fun hc => hoO (hc ▸ mem_forestIds_of_mem hm hk)
        have h1 := hSub k (by rw [nodeIds_def]; simp [mem_forestIds_of_mem hm hk])
        rw [h1, show lookupN k (reify (.node oi oty oprops oCs)) =
            lookupN k (reifyF oCs) from by
          have := lookupN_reify_ne (.node oi oty oprops oCs) (by simpa using hne)
          simpa using this]
        exact lookupN_reifyF_of_mem hndOCs hm hk
      obtain ⟨S0, hup, hS0par, hS0else⟩ :
          ∃ S0, applyList (if oprops = nprops then []
              else [.update par (.node oi oty oprops oCs) (.node oi oty nprops nCs) idx])
              S = .ok S0 ∧
            lookupN oi S0 = some ⟨oty, nprops, idents oCs⟩ ∧
            ∀ k, k ≠ oi → lookupN k S0 = lookupN k S := by
        by_cases hprops : oprops = nprops
        · refine ⟨S, by rw [if_pos hprops]; rfl, ?_, fun k _ => rfl⟩
          rw [hSubOi, hprops]
        · have hstep : applyM S (.update par (.node oi oty oprops oCs)
              (.node oi oty nprops nCs) idx) =
              .ok (setNode oi (fun h => ⟨h.ty, nprops, h.children⟩) S) := by
            have := applyM_update_ok (S := S) (p := par) (o := .node oi oty oprops oCs)
              (n := .node oi oty nprops nCs) (i := idx) (by rw [ident_node, hSubOi]; rfl)
            simpa using this
          refine ⟨setNode oi (fun h => ⟨h.ty, nprops, h.children⟩) S, ?_, ?_, ?_⟩
          · rw [if_neg hprops, applyList_cons_ok _ hstep]
            rfl
          · rw [lookupN_setNode, if_pos rfl, hSubOi]
            rfl
          · intro k hk
            rw [lookupN_setNode, if_neg hk]
      have hS0OldOc : ∀ oc ∈ oCs.toList, ∀ k ∈ nodeIds oc,
          lookupN k S0 = lookupN k (reify oc) := by
        intro oc hm k hk
        rw [hS0else k (fun hc => hoO (hc ▸ mem_forestIds_of_mem hm hk))]
        exact hOldOc oc hm k hk
      have hS0Fresh : ∀ k ∈ forestIds nCs, k ∉ forestIds oCs → lookupN k S0 = none := by
        intro k hk hko
        have hne : k ≠ oi := fun hc => hnN (hc ▸ hk)
        rw [hS0else k hne]
        exact hFresh k (by rw [nodeIds_def]; simp [hk])
          (by rw [nodeIds_def]; simp [hne, hko])
      by_cases hids : idents oCs = idents nCs
      · -- fast path
        obtain ⟨S1, h1, hpost1⟩ := diffPairs_ok oCs nCs (.node oi oty nprops nCs)
          hsimF hndOCs hndNCs oCs nCs hDNcs (fun _ h => h) (fun _ h => h)
          hndOCs hndNCs hids S0 0 hS0OldOc hS0Fresh
        refine ⟨S1, ?_, ?_⟩
        · rw [diffNode_eq, if_pos hids, applyList_append_ok _ hup]
          exact h1
        · intro k
          rw [hpost1 k, nodeIds_def, nodeIds_def]
          simp only [ident_node, children_node, List.mem_cons]
          by_cases hkni : k = oi
          · subst hkni
            rw [if_neg (fun hc => hnN hc), if_neg (fun hc => hoO hc), if_pos (Or.inl rfl)]
            rw [show lookupN k (reify (.node k oty nprops nCs)) =
                some ⟨oty, nprops, idents nCs⟩ from by
              have := lookupN_reify_self (.node k oty nprops nCs)
              simpa using this]
            rw [hS0par, hids]
          · by_cases hk2 : k ∈ forestIds nCs
            · rw [if_pos hk2, if_pos (Or.inr hk2)]
              rw [show lookupN k (reify (.node oi oty nprops nCs)) =
                  lookupN k (reifyF nCs) from by
                have := lookupN_reify_ne (.node oi oty nprops nCs) (by simpa using hkni)
                simpa using this]
            · rw [if_neg hk2, if_neg (not_or.mpr ⟨hkni, hk2⟩)]
              by_cases hk3 : k ∈ forestIds oCs
              · rw [if_pos hk3, if_pos (Or.inr hk3)]
              · rw [if_neg hk3, if_neg (not_or.mpr ⟨hkni, hk3⟩), hS0else k hkni]
      · -- slow path
        obtain ⟨S1, h1, hpost1⟩ := removesRev_ok (.node oi oty nprops nCs) oCs.toList S0
          ⟨oty, nprops, idents oCs⟩ (by rw [ident_node]; exact hS0par)
          (by simp [idents_length])
        set dl := oCs.toList.filter (fun oc => !(decide (oc.ident ∈ idents nCs))) with hdl
        have hdlsub : (dl.flatMap nodeIds).Sublist (forestIds oCs) := by
          rw [forestIds_flat]
          exact sublist_flatMap_filter _ _ _
        have hdlNodup : (dl.flatMap nodeIds).Nodup := hndOCs.sublist hdlsub
        have hdlMemF : ∀ k ∈ dl.flatMap nodeIds, k ∈ forestIds oCs :=
          fun k hk => hdlsub.mem hk
        obtain ⟨S2, h2, hpost2⟩ := deleteSubs_ok dl S1 hdlNodup
          (fun k hk => by
            have hkF : k ∈ forestIds oCs := hdlMemF k hk
            have hne : k ≠ oi := fun hc => hoO (hc ▸ hkF)
            rw [hpost1 k, if_neg (by rw [ident_node]; exact hne)]
            rcases (mem_forestIds_iff k oCs).mp hkF with ⟨oc, hocm, hkoc⟩
            rw [hS0OldOc oc hocm k hkoc]
            rw [Option.isSome_iff_exists]
            rcases Option.isSome_iff_exists.mp
              ((lookupN_isSome_iff k (reify oc)).mpr
                (by rw [reify_keys_T]; exact hkoc)) with ⟨v, hv⟩
            exact ⟨v, hv⟩)
        have hS2par : lookupN oi S2 = some ⟨oty, nprops, []⟩ := by
          rw [hpost2 oi, if_neg (fun hc => hoO (hdlMemF oi hc)), hpost1 oi,
            if_pos (by rw [ident_node])]
        have hS2OldOc : ∀ nc ∈ nCs.toList, ∀ oc, findByIdent nc.ident oCs = some oc →
            ∀ k ∈ nodeIds oc, lookupN k S2 = lookupN k (reify oc) := by
          intro nc hncm oc hfind k hk
          have hocm := (findByIdent_some hfind).1
          have hkF : k ∈ forestIds oCs := mem_forestIds_of_mem hocm hk
          have hne : k ≠ oi := fun hc => hoO (hc ▸ hkF)
          have hknotdl : k ∉ dl.flatMap nodeIds := by
            intro hkdl
            rcases List.mem_flatMap.mp hkdl with ⟨occ, hoccdl, hkocc⟩
            have hoccm : occ ∈ oCs.toList := (List.mem_filter.mp hoccdl).1
            have hocceq : oc = occ := mem_unique_tree hndOCs hocm hoccm hk hkocc
            have hcond := (List.mem_filter.mp hoccdl).2
            simp only [Bool.not_eq_true', decide_eq_false_iff_not] at hcond
            exact hcond (by
              rw [← hocceq, (findByIdent_some hfind).2]
              exact mem_idents_of_mem hncm)
          rw [hpost2 k, if_neg hknotdl, hpost1 k, if_neg (by rw [ident_node]; exact hne)]
          exact hS0OldOc oc hocm k hk
        have hnotinO : ∀ nc ∈ nCs.toList, ∀ k ∈ nodeIds nc,
            (∀ oc, findByIdent nc.ident oCs = some oc → k ∉ nodeIds oc) →
            k ∉ forestIds oCs := by
          intro nc hncm k hk hnotoc hkF
          rcases (mem_forestIds_iff k oCs).mp hkF with ⟨occ, hoccm, hkocc⟩
          have h1 := fresh_not_in_tail hsimF hndNCs hncm hk hoccm hkocc
          have h2 : nc.ident = occ.ident := (findByIdent_some h1).2
          have h3 : findByIdent nc.ident oCs = some occ := by
            rw [h2]
            exact findByIdent_of_mem (idents_nodup hndOCs) hoccm
          exact hnotoc occ h3 hkocc
        obtain ⟨S3, h3, hpost3⟩ := insertsList_ok oCs nCs (.node oi oty nprops nCs)
          hsimF hndOCs hndNCs (by rw [ident_node]; exact hoO) (by rw [ident_node]; exact hnN)
          nCs hDNcs (fun _ h => h) hndNCs S2 ⟨oty, nprops, []⟩ 0
          (by rw [ident_node]; exact hS2par) rfl
          hS2OldOc
          (fun nc hncm hfind k hk => by
            have hkN : k ∈ forestIds nCs := mem_forestIds_of_mem hncm hk
            have hne : k ≠ oi := fun hc => hnN (hc ▸ hkN)
            by_cases hkdl : k ∈ dl.flatMap nodeIds
            · rw [hpost2 k, if_pos hkdl]
            · have hkO : k ∉ forestIds oCs := by
                apply hnotinO nc hncm k hk
                intro oc hf _
                rw [hfind] at hf
                cases hf
              rw [hpost2 k, if_neg hkdl, hpost1 k, if_neg (by rw [ident_node]; exact hne)]
              exact hS0Fresh k hkN hkO)
          (fun nc hncm oc hfind k hk hknotoc => by
            have hkN : k ∈ forestIds nCs := mem_forestIds_of_mem hncm hk
            have hne : k ≠ oi := fun hc => hnN (hc ▸ hkN)
            by_cases hkdl : k ∈ dl.flatMap nodeIds
            · rw [hpost2 k, if_pos hkdl]
            · have hkO : k ∉ forestIds oCs := by
                apply hnotinO nc hncm k hk
                intro occ hf hkocc
                rw [hfind] at hf
                injection hf with hf
                exact hknotoc (hf ▸ hkocc)
              rw [hpost2 k, if_neg hkdl, hpost1 k, if_neg (by rw [ident_node]; exact hne)]
              exact hS0Fresh k hkN hkO)
        refine ⟨S3, ?_, ?_⟩
        · rw [diffNode_eq, if_neg hids, applyList_append_ok _ hup]
          have h12 : applyList (removesList (.node oi oty nprops nCs) oCs ++
              deletesList nCs oCs) S0 = .ok S2 := by
            rw [show removesList (.node oi oty nprops nCs) oCs =
              removesRev (.node oi oty nprops nCs) oCs.toList.enum.reverse from rfl,
              applyList_append_ok _ h1]
            exact h2
          rw [applyList_append_ok _ h12]
          exact h3
        · intro k
          rw [hpost3 k, nodeIds_def, nodeIds_def]
          simp only [ident_node, children_node, List.mem_cons]
          by_cases hkni : k = oi
          · subst hkni
            rw [if_pos rfl, if_pos (Or.inl rfl)]
            rw [show lookupN k (reify (.node k oty nprops nCs)) =
                some ⟨oty, nprops, idents nCs⟩ from by
              have := lookupN_reify_self (.node k oty nprops nCs)
              simpa using this]
            simp
          · rw [if_neg hkni]
            by_cases hk2 : k ∈ forestIds nCs
            · rw [if_pos hk2, if_pos (Or.inr hk2)]
              rw [show lookupN k (reify (.node oi oty nprops nCs)) =
                  lookupN k (reifyF nCs) from by
                have := lookupN_reify_ne (.node oi oty nprops nCs) (by simpa using hkni)
                simpa using this]
            · rw [if_neg hk2, if_neg (not_or.mpr ⟨hkni, hk2⟩)]
              by_cases hk3 : k ∈ forestIds oCs
              · rw [if_pos (Or.inr hk3)]
                by_cases hk4 : k ∈ matchedOldIds oCs nCs
                · rw [if_pos hk4]
                · rw [if_neg hk4, hpost2 k]
                  rcases (mem_forestIds_iff k oCs).mp hk3 with ⟨occ, hoccm, hkocc⟩
                  by_cases hcond : occ.ident ∈ idents nCs
                  · exfalso
                    rcases exists_of_mem_idents hcond with ⟨nc, hncm, hnceq⟩
                    apply hk4
                    apply mem_matchedOldIds.mpr
                    refine ⟨nc, hncm, occ, ?_, hkocc⟩
                    rw [hnceq]
                    exact findByIdent_of_mem (idents_nodup hndOCs) hoccm
                  · rw [if_pos (List.mem_flatMap.mpr ⟨occ,
                      List.mem_filter.mpr ⟨hoccm, by
                        simp only [Bool.not_eq_true', decide_eq_false_iff_not]
                        exact hcond⟩, hkocc⟩)]
              · rw [if_neg (not_or.mpr ⟨hkni, hk3⟩)]
                have hk4 : k ∉ matchedOldIds oCs nCs := by
                  intro hk4
                  rcases mem_matchedOldIds.mp hk4 with ⟨nc, hncm, oc, hfind, hkoc⟩
                  exact hk3 (mem_forestIds_of_mem (findByIdent_some hfind).1 hkoc)
                have hkdl : k ∉ dl.flatMap nodeIds := fun hc => hk3 (hdlMemF k hc)
                rw [if_neg hk4, hpost2 k, if_neg hkdl, hpost1 k,
                  if_neg (by rw [ident_node]; exact hkni), hS0else k hkni]

/-- Every tree satisfies the differ correctness statement. -/
theorem dn_all (n : VTree) : DN n := dn_strong (tsizeT n) n (le_refl _)

/-! ### Claim-level theorems for the differ and applier -/

theorem diffNode_self (t : VTree) : ∀ par idx, diffNode par t t idx = [] := by
  refine tree_induction
    (P := fun t => ∀ par idx, diffNode par t t idx = [])
    (Q := fun ts => ∀ par j, diffPairs par ts ts j = []) ?_ ?_ ?_ t
  · intro i ty p cs ih par idx
    rw [diffNode_eq, if_pos rfl, if_pos rfl, ih]
    rfl
  · intro par j
    rfl
  · intro u ts iht ihts par j
    rw [diffPairs_cons, iht, ihts]
    rfl

/-- C3: `diff(T, T)` returns the empty instruction list, for every tree `T`
(well-formed or not). -/
theorem diff_self_empty (T : VTree) : diff T T = [] := diffNode_self T T 0

/-- C1 (amended): for well-formed trees `A` and `B` whose shared identities
keep their parent and their type across the commit (`simT A B`, which also
fixes the root identity), applying `diff(A, B)` to a host tree initialized to
`A` succeeds and yields a host tree equal, association by association, to the
reification of `B`. -/
theorem diff_round_trip (A B : VTree) (hA : WF A) (hB : WF B)
    (hsim : simT A B = true) :
    ∃ S', applyList (diff A B) (reify A) = .ok S' ∧
      ∀ k, lookupN k S' = lookupN k (reify B) := by
  obtain ⟨S', h, hpost⟩ := dn_all B A B 0 (reify A) hsim hA hB
    (fun k _ => rfl) (fun k _ hko => lookupN_reify_none hko)
  refine ⟨S', h, fun k => ?_⟩
  rw [hpost k]
  by_cases h1 : k ∈ nodeIds B
  · rw [if_pos h1]
  · rw [if_neg h1, lookupN_reify_none h1]
    by_cases h2 : k ∈ nodeIds A
    · rw [if_pos h2]
    · rw [if_neg h2, lookupN_reify_none h2]


/-- C1 (counterexample): both trees are well-formed with the same root, yet
applying `diff(cexA, cexB)` to a host initialized to `cexA` does not reproduce
`cexB` — node 3 is reparented from under 4 to under 2, and the per-parent walk
emits its Create (under 2) before the Remove/Delete under 4, so the applier
faults on the duplicate identity. -/
theorem diff_round_trip_cex :
    WF cexA ∧ WF cexB ∧ cexA.ident = cexB.ident ∧
    ¬ ∃ S', applyList (diff cexA cexB) (reify cexA) = .ok S' ∧
        ∀ k, lookupN k S' = lookupN k (reify cexB) := by
  refine ⟨by decide, by decide, rfl, ?_⟩
  rintro ⟨S', hS, -⟩
  have h1 : applyList (diff cexA cexB) (reify cexA) = .error .hostAllocation := rfl
  rw [h1] at hS
  cases hS


theorem diff_round_trip_witness :
    ∃ S', applyList (diff rtA rtB) (reify rtA) = .ok S' ∧
      ∀ k, lookupN k S' = lookupN k (reify rtB) :=
  diff_round_trip rtA rtB (by decide) (by decide) (by decide)

theorem applyFrom_spec : ∀ (L : List M) (S S' : HostState) (i k : Nat) (e : AErr),
    applyFrom L S i = (S', some (k, e)) →
    i ≤ k ∧ k - i < L.length ∧ applyList (L.take (k - i)) S = .ok S' ∧
    ∃ m, L.get? (k - i) = some m ∧ applyM S' m = .error e := by
  intro L
  induction L with
  | nil =>
      intro S S' i k e h
      rw [applyFrom] at h
      cases h
  | cons m L ih =>
      intro S S' i k e h
      rw [applyFrom] at h
      cases hm : applyM S m with
      | ok S1 =>
          rw [hm] at h
          obtain ⟨hik, hlt, happ, m', hget, herr⟩ := ih S1 S' (i + 1) k e h
          have hki : i ≤ k := by omega
          have hsub : k - i = (k - (i + 1)) + 1 := by omega
          refine ⟨hki, by simp [hsub]; omega, ?_, m', ?_, herr⟩
          · rw [hsub, List.take_succ_cons, applyList_cons_ok _ hm]
            exact happ
          · rw [hsub]
            simpa using hget
      | error e1 =>
          rw [hm] at h
          injection h with h1 h2
          injection h2 with h2
          obtain ⟨hk, he⟩ := Prod.mk.injEq .. |>.mp h2
          subst h1
          subst hk
          subst he
          refine ⟨le_refl _, by simp, by simp [applyList], m, by simp, hm⟩

/-- C7: when `apply` fails, it stops at the failing instruction: the reported
index `k` is within the list and equals the number of instructions that
succeeded, the returned state is exactly the state produced by the successful
prefix (no rollback), and the instruction at index `k` is the one that failed
with the reported error (nothing is skipped). -/
theorem apply_error_reporting (L : List M) (S S' : HostState) (k : Nat) (e : AErr)
    (h : applyAll L S = (S', some (k, e))) :
    k < L.length ∧ applyList (L.take k) S = .ok S' ∧
    ∃ m, L.get? k = some m ∧ applyM S' m = .error e := by
  obtain ⟨h1, h2, h3, h4⟩ := applyFrom_spec L S S' 0 k e h
  rw [Nat.sub_zero] at h2 h3 h4
  exact ⟨h2, h3, h4⟩

/-! ### Instruction ordering: predicates and shape lemmas -/

theorem ROrd_of_left {a : M} (h1 : insertParent? a = none) (h2 : deleteId? a = none)
    (h3 : insertChildId? a = none) (b : M) : ROrd a b := by
  refine ⟨fun p hp => ?_, fun x hx => ?_, fun x hx => ?_⟩ <;> simp_all

theorem pairwise_of_none {L : List M}
    (h : ∀ a ∈ L, insertParent? a = none ∧ deleteId? a = none ∧ insertChildId? a = none) :
    L.Pairwise ROrd := by
  induction L with
  | nil => exact List.Pairwise.nil
  | cons a L ih =>
      refine List.Pairwise.cons (fun b _ => ?_) (ih (fun x hx => h x (by simp [hx])))
      obtain ⟨h1, h2, h3⟩ := h a (by simp)
      exact ROrd_of_left h1 h2 h3 b

theorem removesRev_shape (par : VTree) (l : List (Nat × VTree)) :
    ∀ m ∈ removesRev par l, ∃ i o, m = .remove par o i ∧ o ∈ l.map Prod.snd := by
  induction l with
  | nil => simp [removesRev]
  | cons p l ih =>
      intro m hm
      obtain ⟨i0, o0⟩ := p
      rw [removesRev] at hm
      rcases (by simpa using hm) with rfl | hm'
      · exact ⟨i0, o0, rfl, by simp⟩
      · rcases ih m hm' with ⟨i, o, rfl, ho⟩
        exact ⟨i, o, rfl, by simp [ho]⟩

theorem deleteSub_shape :
    (∀ t : VTree, ∀ m ∈ deleteSub t, ∃ x, m = .delete x ∧ x.ident ∈ nodeIds t) ∧
    (∀ ts : VForest, ∀ m ∈ deleteSubF ts, ∃ x, m = .delete x ∧ x.ident ∈ forestIds ts) := by
  have hnode : ∀ (i ty p : Nat) (cs : VForest),
      (∀ m ∈ deleteSubF cs, ∃ x, m = .delete x ∧ x.ident ∈ forestIds cs) →
      ∀ m ∈ deleteSub (.node i ty p cs), ∃ x, m = .delete x ∧
        x.ident ∈ nodeIds (.node i ty p cs) := by
    intro i ty p cs ih m hm
    rw [show deleteSub (.node i ty p cs) = deleteSubF cs ++ [.delete (.node i ty p cs)]
      from rfl] at hm
    rcases List.mem_append.mp hm with hm' | hm'
    · rcases ih m hm' with ⟨x, rfl, hx⟩
      exact ⟨x, rfl, by rw [nodeIds_def]; simp [hx]⟩
    · rcases (by simpa using hm') with rfl
      exact ⟨.node i ty p cs, rfl, by rw [nodeIds_def]; simp⟩
  have hnil : ∀ m ∈ deleteSubF .nil, ∃ x, m = .delete x ∧ x.ident ∈ forestIds .nil := by
    intro m hm
    simp [deleteSubF] at hm
  have hcons : ∀ (t : VTree) (ts : VForest),
      (∀ m ∈ deleteSub t, ∃ x, m = .delete x ∧ x.ident ∈ nodeIds t) →
      (∀ m ∈ deleteSubF ts, ∃ x, m = .delete x ∧ x.ident ∈ forestIds ts) →
      ∀ m ∈ deleteSubF (.cons t ts), ∃ x, m = .delete x ∧
        x.ident ∈ forestIds (.cons t ts) := by
    intro t ts iht ihts m hm
    rw [show deleteSubF (.cons t ts) = deleteSub t ++ deleteSubF ts from rfl] at hm
    rcases List.mem_append.mp hm with hm' | hm'
    · rcases iht m hm' with ⟨x, rfl, hx⟩
      exact ⟨x, rfl, by simp [hx]⟩
    · rcases ihts m hm' with ⟨x, rfl, hx⟩
      exact ⟨x, rfl, by simp [hx]⟩
  exact ⟨fun t => tree_induction hnode hnil hcons t,
    fun ts => tree_induction_forest hnode hnil hcons ts⟩

theorem createSub_shape :
    (∀ t : VTree, ∀ par idx, ∀ m ∈ createSub par t idx,
      (∃ x, m = .create x ∧ x.ident ∈ nodeIds t) ∨
      (∃ q c i, m = .insert q c i ∧ c.ident ∈ nodeIds t ∧
        (q = par ∨ q.ident ∈ nodeIds t))) ∧
    (∀ ts : VForest, ∀ par j, ∀ m ∈ createSubF par ts j,
      (∃ x, m = .create x ∧ x.ident ∈ forestIds ts) ∨
      (∃ q c i, m = .insert q c i ∧ c.ident ∈ forestIds ts ∧
        (q = par ∨ q.ident ∈ forestIds ts))) := by
  have hnode : ∀ (i ty p : Nat) (cs : VForest),
      (∀ par j, ∀ m ∈ createSubF par cs j,
        (∃ x, m = .create x ∧ x.ident ∈ forestIds cs) ∨
        (∃ q c i, m = .insert q c i ∧ c.ident ∈ forestIds cs ∧
          (q = par ∨ q.ident ∈ forestIds cs))) →
      ∀ par idx, ∀ m ∈ createSub par (.node i ty p cs) idx,
        (∃ x, m = .create x ∧ x.ident ∈ nodeIds (.node i ty p cs)) ∨
        (∃ q c i0, m = .insert q c i0 ∧ c.ident ∈ nodeIds (.node i ty p cs) ∧
          (q = par ∨ q.ident ∈ nodeIds (.node i ty p cs))) := by
    intro i ty p cs ih par idx m hm
    rw [show createSub par (.node i ty p cs) idx =
      .create (.node i ty p cs) :: .insert par (.node i ty p cs) idx ::
        createSubF (.node i ty p cs) cs 0 from rfl] at hm
    rcases (by simpa using hm) with rfl | (rfl | hm')
    · exact Or.inl ⟨_, rfl, by rw [nodeIds_def]; simp⟩
    · exact Or.inr ⟨par, _, idx, rfl, by rw [nodeIds_def]; simp, Or.inl rfl⟩
    · rcases ih (.node i ty p cs) 0 m hm' with ⟨x, rfl, hx⟩ | ⟨q, c, i0, rfl, hc, hq⟩
      · exact Or.inl ⟨x, rfl, by rw [nodeIds_def]; simp [hx]⟩
      · refine Or.inr ⟨q, c, i0, rfl, by rw [nodeIds_def]; simp [hc], ?_⟩
        rcases hq with rfl | hq
        · exact Or.inr (by rw [nodeIds_def]; simp)
        · exact Or.inr (by rw [nodeIds_def]; simp [hq])
  have hnil : ∀ par j, ∀ m ∈ createSubF par .nil j,
      (∃ x, m = .create x ∧ x.ident ∈ forestIds .nil) ∨
      (∃ q c i, m = .insert q c i ∧ c.ident ∈ forestIds .nil ∧
        (q = par ∨ q.ident ∈ forestIds .nil)) := by
    intro par j m hm
    simp [createSubF] at hm
  have hcons : ∀ (t : VTree) (ts : VForest),
      (∀ par idx, ∀ m ∈ createSub par t idx,
        (∃ x, m = .create x ∧ x.ident ∈ nodeIds t) ∨
        (∃ q c i, m = .insert q c i ∧ c.ident ∈ nodeIds t ∧
          (q = par ∨ q.ident ∈ nodeIds t))) →
      (∀ par j, ∀ m ∈ createSubF par ts j,
        (∃ x, m = .create x ∧ x.ident ∈ forestIds ts) ∨
        (∃ q c i, m = .insert q c i ∧ c.ident ∈ forestIds ts ∧
          (q = par ∨ q.ident ∈ forestIds ts))) →
      ∀ par j, ∀ m ∈ createSubF par (.cons t ts) j,
        (∃ x, m = .create x ∧ x.ident ∈ forestIds (.cons t ts)) ∨
        (∃ q c i, m = .insert q c i ∧ c.ident ∈ forestIds (.cons t ts) ∧
          (q = par ∨ q.ident ∈ forestIds (.cons t ts))) := by
    intro t ts iht ihts par j m hm
    rw [show createSubF par (.cons t ts) j = createSub par t j ++ createSubF par ts (j + 1)
      from rfl] at hm
    rcases List.mem_append.mp hm with hm' | hm'
    · rcases iht par j m hm' with ⟨x, rfl, hx⟩ | ⟨q, c, i, rfl, hc, hq⟩
      · exact Or.inl ⟨x, rfl, by simp [hx]⟩
      · refine Or.inr ⟨q, c, i, rfl, by simp [hc], ?_⟩
        rcases hq with rfl | hq
        · exact Or.inl rfl
        · exact Or.inr (by simp [hq])
    · rcases ihts par (j + 1) m hm' with ⟨x, rfl, hx⟩ | ⟨q, c, i, rfl, hc, hq⟩
      · exact Or.inl ⟨x, rfl, by simp [hx]⟩
      · refine Or.inr ⟨q, c, i, rfl, by simp [hc], ?_⟩
        rcases hq with rfl | hq
        · exact Or.inl rfl
        · exact Or.inr (by simp [hq])
  exact ⟨fun t => tree_induction hnode hnil hcons t,
    fun ts => tree_induction_forest hnode hnil hcons ts⟩

theorem childIds_sub (t : VTree) {k : Nat} (h : k ∈ forestIds t.children) :
    k ∈ nodeIds t := by
  rw [nodeIds_def]
  simp [h]


theorem diffPairs_shape (par : VTree) : ∀ (os ns : VForest) (j : Nat),
    (∀ nc ∈ ns.toList, DBStmt nc) →
    ∀ m ∈ diffPairs par os ns j,
    (∃ q a b i, m = .update q a b i) ∨
    (∃ q c i, m = .remove q c i ∧ q.ident ∈ forestIds ns ∧ c.ident ∈ forestIds os) ∨
    (∃ x, m = .delete x ∧ x.ident ∈ forestIds os) ∨
    (∃ x, m = .create x ∧ x.ident ∈ forestIds ns) ∨
    (∃ q c i, m = .insert q c i ∧ q.ident ∈ forestIds ns ∧ c.ident ∈ forestIds ns) := by
  intro os
  induction os using forest_induction with
  | nil =>
      intro ns j _ m hm
      cases ns <;> simp [diffPairs] at hm
  | cons oc os' ih =>
      intro ns j hIH m hm
      cases ns with
      | nil => simp [diffPairs] at hm
      | cons nn ns' =>
          rw [diffPairs_cons] at hm
          rcases List.mem_append.mp hm with hm' | hm'
          · rcases hIH nn (by simp) oc par j m hm' with
              h | ⟨q, c, i, rfl, h1, h2⟩ | ⟨x, rfl, h1⟩ | ⟨x, rfl, h1⟩ | ⟨q, c, i, rfl, h1, h2⟩
            · exact Or.inl h
            · exact Or.inr (Or.inl ⟨q, c, i, rfl, by simp [h1],
                by simp [childIds_sub oc h2]⟩)
            · exact Or.inr (Or.inr (Or.inl ⟨x, rfl, by simp [childIds_sub oc h1]⟩))
            · exact Or.inr (Or.inr (Or.inr (Or.inl ⟨x, rfl, by simp [childIds_sub nn h1]⟩)))
            · exact Or.inr (Or.inr (Or.inr (Or.inr ⟨q, c, i, rfl, by simp [h1],
                by simp [childIds_sub nn h2]⟩)))
          · rcases ih ns' (j + 1) (fun nc h => hIH nc (by simp [h])) m hm' with
              h | ⟨q, c, i, rfl, h1, h2⟩ | ⟨x, rfl, h1⟩ | ⟨x, rfl, h1⟩ | ⟨q, c, i, rfl, h1, h2⟩
            · exact Or.inl h
            · exact Or.inr (Or.inl ⟨q, c, i, rfl, by simp [h1], by simp [h2]⟩)
            · exact Or.inr (Or.inr (Or.inl ⟨x, rfl, by simp [h1]⟩))
            · exact Or.inr (Or.inr (Or.inr (Or.inl ⟨x, rfl, by simp [h1]⟩)))
            · exact Or.inr (Or.inr (Or.inr (Or.inr ⟨q, c, i, rfl, by simp [h1],
                by simp [h2]⟩)))

theorem matchedOldIds_mono {osAll : VForest} {nn : VTree} {ns' : VForest} {x : Nat}
    (h : x ∈ matchedOldIds osAll ns') : x ∈ matchedOldIds osAll (.cons nn ns') := by
  rcases mem_matchedOldIds.mp h with ⟨nc, hnc, oc, hf, hx⟩
  exact mem_matchedOldIds.mpr ⟨nc, by simp [hnc], oc, hf, hx⟩

theorem insertsList_shape (par : VTree) (osAll : VForest) : ∀ (ns : VForest) (j : Nat),
    (∀ nc ∈ ns.toList, DBStmt nc) →
    ∀ m ∈ insertsList par osAll ns j,
    (∃ q a b i, m = .update q a b i) ∨
    (∃ q c i, m = .remove q c i ∧ q.ident ∈ forestIds ns ∧
      c.ident ∈ matchedOldIds osAll ns) ∨
    (∃ x, m = .delete x ∧ x.ident ∈ matchedOldIds osAll ns) ∨
    (∃ x, m = .create x ∧ x.ident ∈ forestIds ns) ∨
    (∃ q c i, m = .insert q c i ∧ (q = par ∨ q.ident ∈ forestIds ns) ∧
      c.ident ∈ forestIds ns) := by
  intro ns
  induction ns using forest_induction with
  | nil =>
      intro j _ m hm
      simp [insertsList_nil] at hm
  | cons nn ns' ih =>
      intro j hIH m hm
      have hmm : nn ∈ (VForest.cons nn ns').toList := by simp
      rw [insertsList_cons] at hm
      cases hfind : findByIdent nn.ident osAll with
      | some oc =>
          rw [hfind] at hm
          have hocM : ∀ y, y ∈ nodeIds oc → y ∈ matchedOldIds osAll (.cons nn ns') :=
            fun y hy => mem_matchedOldIds.mpr ⟨nn, hmm, oc, hfind, hy⟩
          rcases List.mem_append.mp hm with hm' | hm'
          · rcases (by simpa using hm') with rfl | hm2
            · exact Or.inr (Or.inr (Or.inr (Or.inr ⟨par, nn, j, rfl, Or.inl rfl,
                by simp [ident_mem_nodeIds]⟩)))
            · rcases hIH nn hmm oc par j m hm2 with
                h | ⟨q, c, i, rfl, h1, h2⟩ | ⟨x, rfl, h1⟩ | ⟨x, rfl, h1⟩ |
                  ⟨q, c, i, rfl, h1, h2⟩
              · exact Or.inl h
              · exact Or.inr (Or.inl ⟨q, c, i, rfl, by simp [h1],
                  hocM _ (childIds_sub oc h2)⟩)
              · exact Or.inr (Or.inr (Or.inl ⟨x, rfl, hocM _ (childIds_sub oc h1)⟩))
              · exact Or.inr (Or.inr (Or.inr (Or.inl ⟨x, rfl,
                  by simp [childIds_sub nn h1]⟩)))
              · exact Or.inr (Or.inr (Or.inr (Or.inr ⟨q, c, i, rfl,
                  Or.inr (by simp [h1]), by simp [childIds_sub nn h2]⟩)))
          · rcases ih (j + 1) (fun nc h => hIH nc (by simp [h])) m hm' with
              h | ⟨q, c, i, rfl, h1, h2⟩ | ⟨x, rfl, h1⟩ | ⟨x, rfl, h1⟩ |
                ⟨q, c, i, rfl, h1, h2⟩
            · exact Or.inl h
            · exact Or.inr (Or.inl ⟨q, c, i, rfl, by simp [h1], matchedOldIds_mono h2⟩)
            · exact Or.inr (Or.inr (Or.inl ⟨x, rfl, matchedOldIds_mono h1⟩))
            · exact Or.inr (Or.inr (Or.inr (Or.inl ⟨x, rfl, by simp [h1]⟩)))
            · refine Or.inr (Or.inr (Or.inr (Or.inr ⟨q, c, i, rfl, ?_, by simp [h2]⟩)))
              rcases h1 with rfl | h1
              · exact Or.inl rfl
              · exact Or.inr (by simp [h1])
      | none =>
          rw [hfind] at hm
          rcases List.mem_append.mp hm with hm' | hm'
          · rcases createSub_shape.1 nn par j m hm' with ⟨x, rfl, hx⟩ | ⟨q, c, i, rfl, hc, hq⟩
            · exact Or.inr (Or.inr (Or.inr (Or.inl ⟨x, rfl, by simp [hx]⟩)))
            · refine Or.inr (Or.inr (Or.inr (Or.inr ⟨q, c, i, rfl, ?_, by simp [hc]⟩)))
              rcases hq with rfl | hq
              · exact Or.inl rfl
              · exact Or.inr (by simp [hq])
          · rcases ih (j + 1) (fun nc h => hIH nc (by simp [h])) m hm' with
              h | ⟨q, c, i, rfl, h1, h2⟩ | ⟨x, rfl, h1⟩ | ⟨x, rfl, h1⟩ |
                ⟨q, c, i, rfl, h1, h2⟩
            · exact Or.inl h
            · exact Or.inr (Or.inl ⟨q, c, i, rfl, by simp [h1], matchedOldIds_mono h2⟩)
            · exact Or.inr (Or.inr (Or.inl ⟨x, rfl, matchedOldIds_mono h1⟩))
            · exact Or.inr (Or.inr (Or.inr (Or.inl ⟨x, rfl, by simp [h1]⟩)))
            · refine Or.inr (Or.inr (Or.inr (Or.inr ⟨q, c, i, rfl, ?_, by simp [h2]⟩)))
              rcases h1 with rfl | h1
              · exact Or.inl rfl
              · exact Or.inr (by simp [h1])

theorem db_strong : ∀ N : Nat, ∀ n : VTree, tsizeT n ≤ N → DBStmt n := by
  intro N
  induction N with
  | zero =>
      intro n hn
      exact absurd hn (by have := tsizeT_pos n; omega)
  | succ N ihN =>
      intro n hn o par idx m hm
      cases o with
      | node oi oty oprops oCs =>
      cases n with
      | node ni nty nprops nCs =>
      rw [tsizeT] at hn
      have hDB : ∀ nc ∈ nCs.toList, DBStmt nc := fun nc hmem =>
        ihN nc (by have := tsizeT_le_of_mem hmem; omega)
      rw [diffNode_eq] at hm
      rcases List.mem_append.mp hm with hup | hch
      · by_cases hprops : oprops = nprops
        · rw [if_pos hprops] at hup
          simp at hup
        · rw [if_neg hprops] at hup
          rcases (by simpa using hup) with rfl
          exact Or.inl ⟨_, _, _, _, rfl⟩
      · by_cases hids : idents oCs = idents nCs
        · rw [if_pos hids] at hch
          rcases diffPairs_shape (.node ni nty nprops nCs) oCs nCs 0 hDB m hch with
            h | ⟨q, c, i, rfl, h1, h2⟩ | ⟨x, rfl, h1⟩ | ⟨x, rfl, h1⟩ | ⟨q, c, i, rfl, h1, h2⟩
          · exact Or.inl h
          · exact Or.inr (Or.inl ⟨q, c, i, rfl, by rw [nodeIds_def]; simp [h1], h2⟩)
          · exact Or.inr (Or.inr (Or.inl ⟨x, rfl, h1⟩))
          · exact Or.inr (Or.inr (Or.inr (Or.inl ⟨x, rfl, h1⟩)))
          · exact Or.inr (Or.inr (Or.inr (Or.inr ⟨q, c, i, rfl,
              by rw [nodeIds_def]; simp [h1], h2⟩)))
        · rw [if_neg hids] at hch
          rcases List.mem_append.mp hch with hrd | hins
          · rcases List.mem_append.mp hrd with hrem | hdel
            · rcases removesRev_shape (.node ni nty nprops nCs) _ m hrem with ⟨i, o, rfl, ho⟩
              have hoL : o ∈ oCs.toList := by
                have h1 : (oCs.toList.enum.reverse).map Prod.snd =
                    (oCs.toList.enum.map Prod.snd).reverse := by
                  rw [List.map_reverse]
                rw [h1, List.enum_map_snd] at ho
                exact List.mem_reverse.mp ho
              refine Or.inr (Or.inl ⟨_, o, i, rfl, by rw [nodeIds_def]; simp, ?_⟩)
              simpa using mem_forestIds_of_mem hoL (ident_mem_nodeIds o)
            · rcases List.mem_flatMap.mp hdel with ⟨t, htdl, hmt⟩
              rcases deleteSub_shape.1 t m hmt with ⟨x, rfl, hx⟩
              have htL : t ∈ oCs.toList := (List.mem_filter.mp htdl).1
              exact Or.inr (Or.inr (Or.inl ⟨x, rfl,
                by simpa using mem_forestIds_of_mem htL hx⟩))
          · rcases insertsList_shape (.node ni nty nprops nCs) oCs nCs 0 hDB m hins with
              h | ⟨q, c, i, rfl, h1, h2⟩ | ⟨x, rfl, h1⟩ | ⟨x, rfl, h1⟩ |
                ⟨q, c, i, rfl, h1, h2⟩
            · exact Or.inl h
            · refine Or.inr (Or.inl ⟨q, c, i, rfl, by rw [nodeIds_def]; simp [h1], ?_⟩)
              rcases mem_matchedOldIds.mp h2 with ⟨nc, _, oc, hf, hx⟩
              simpa using mem_forestIds_of_mem (findByIdent_some hf).1 hx
            · refine Or.inr (Or.inr (Or.inl ⟨x, rfl, ?_⟩))
              rcases mem_matchedOldIds.mp h1 with ⟨nc, _, oc, hf, hx⟩
              simpa using mem_forestIds_of_mem (findByIdent_some hf).1 hx
            · exact Or.inr (Or.inr (Or.inr (Or.inl ⟨x, rfl, h1⟩)))
            · refine Or.inr (Or.inr (Or.inr (Or.inr ⟨q, c, i, rfl, ?_, h2⟩)))
              rcases h1 with rfl | h1
              · rw [nodeIds_def]; simp
              · rw [nodeIds_def]; simp [h1]

theorem db_all (n : VTree) : DBStmt n := db_strong (tsizeT n) n (le_refl _)

/-! ### Instruction ordering: pairwise correctness -/

theorem db_preds {n : VTree} (o par : VTree) (idx : Nat) {m : M}
    (hm : m ∈ diffNode par o n idx) :
    (∀ p, insertParent? m = some p → p ∈ nodeIds n) ∧
    (∀ p, removeParent? m = some p → p ∈ nodeIds n) ∧
    (∀ x, createId? m = some x → x ∈ forestIds n.children) ∧
    (∀ x, insertChildId? m = some x → x ∈ forestIds n.children) ∧
    (∀ x, deleteId? m = some x → x ∈ forestIds o.children) ∧
    (∀ x, removeChildId? m = some x → x ∈ forestIds o.children) := by
  rcases db_all n o par idx m hm with
    ⟨q, a, b, i, rfl⟩ | ⟨q, c, i, rfl, h1, h2⟩ | ⟨x, rfl, h1⟩ | ⟨x, rfl, h1⟩ |
      ⟨q, c, i, rfl, h1, h2⟩ <;>
    refine ⟨fun y hy => ?_, fun y hy => ?_, fun y hy => ?_, fun y hy => ?_,
      fun y hy => ?_, fun y hy => ?_⟩ <;>
    simp_all [insertParent?, removeParent?, createId?, insertChildId?, deleteId?,
      removeChildId?]

theorem pairs_preds (par : VTree) (os ns : VForest) (j : Nat)
    (hIH : ∀ nc ∈ ns.toList, DBStmt nc) {m : M} (hm : m ∈ diffPairs par os ns j) :
    (∀ p, insertParent? m = some p → p ∈ forestIds ns) ∧
    (∀ p, removeParent? m = some p → p ∈ forestIds ns) ∧
    (∀ x, createId? m = some x → x ∈ forestIds ns) ∧
    (∀ x, insertChildId? m = some x → x ∈ forestIds ns) ∧
    (∀ x, deleteId? m = some x → x ∈ forestIds os) ∧
    (∀ x, removeChildId? m = some x → x ∈ forestIds os) := by
  rcases diffPairs_shape par os ns j hIH m hm with
    ⟨q, a, b, i, rfl⟩ | ⟨q, c, i, rfl, h1, h2⟩ | ⟨x, rfl, h1⟩ | ⟨x, rfl, h1⟩ |
      ⟨q, c, i, rfl, h1, h2⟩ <;>
    refine ⟨fun y hy => ?_, fun y hy => ?_, fun y hy => ?_, fun y hy => ?_,
      fun y hy => ?_, fun y hy => ?_⟩ <;>
    simp_all [insertParent?, removeParent?, createId?, insertChildId?, deleteId?,
      removeChildId?]

theorem inserts_preds (par : VTree) (osAll ns : VForest) (j : Nat)
    (hIH : ∀ nc ∈ ns.toList, DBStmt nc) {m : M} (hm : m ∈ insertsList par osAll ns j) :
    (∀ p, insertParent? m = some p → p = par.ident ∨ p ∈ forestIds ns) ∧
    (∀ p, removeParent? m = some p → p ∈ forestIds ns) ∧
    (∀ x, createId? m = some x → x ∈ forestIds ns) ∧
    (∀ x, insertChildId? m = some x → x ∈ forestIds ns) ∧
    (∀ x, deleteId? m = some x → x ∈ matchedOldIds osAll ns) ∧
    (∀ x, removeChildId? m = some x → x ∈ matchedOldIds osAll ns) := by
  rcases insertsList_shape par osAll ns j hIH m hm with
    ⟨q, a, b, i, rfl⟩ | ⟨q, c, i, rfl, h1, h2⟩ | ⟨x, rfl, h1⟩ | ⟨x, rfl, h1⟩ |
      ⟨q, c, i, rfl, h1, h2⟩ <;>
    refine ⟨fun y hy => ?_, fun y hy => ?_, fun y hy => ?_, fun y hy => ?_,
      fun y hy => ?_, fun y hy => ?_⟩ <;>
    simp_all [insertParent?, removeParent?, createId?, insertChildId?, deleteId?,
      removeChildId?] <;>
    (rcases h1 with rfl | h1 <;> [exact Or.inl hy.symm; exact Or.inr h1])

theorem create_preds {par t : VTree} {idx : Nat} {m : M} (hm : m ∈ createSub par t idx) :
    (∀ p, insertParent? m = some p → p = par.ident ∨ p ∈ nodeIds t) ∧
    removeParent? m = none ∧
    (∀ x, createId? m = some x → x ∈ nodeIds t) ∧
    (∀ x, insertChildId? m = some x → x ∈ nodeIds t) ∧
    deleteId? m = none ∧
    removeChildId? m = none := by
  rcases createSub_shape.1 t par idx m hm with ⟨x, rfl, h1⟩ | ⟨q, c, i, rfl, h1, h2⟩ <;>
    refine ⟨fun y hy => ?_, ?_, fun y hy => ?_, fun y hy => ?_, ?_, ?_⟩ <;>
    simp_all [insertParent?, removeParent?, createId?, insertChildId?, deleteId?,
      removeChildId?] <;>
    (rcases h2 with rfl | h2 <;> [exact Or.inl hy.symm; exact Or.inr h2])

theorem createF_preds {par : VTree} {ts : VForest} {j : Nat} {m : M}
    (hm : m ∈ createSubF par ts j) :
    (∀ p, insertParent? m = some p → p = par.ident ∨ p ∈ forestIds ts) ∧
    removeParent? m = none ∧
    (∀ x, createId? m = some x → x ∈ forestIds ts) ∧
    (∀ x, insertChildId? m = some x → x ∈ forestIds ts) ∧
    deleteId? m = none ∧
    removeChildId? m = none := by
  rcases createSub_shape.2 ts par j m hm with ⟨x, rfl, h1⟩ | ⟨q, c, i, rfl, h1, h2⟩ <;>
    refine ⟨fun y hy => ?_, ?_, fun y hy => ?_, fun y hy => ?_, ?_, ?_⟩ <;>
    simp_all [insertParent?, removeParent?, createId?, insertChildId?, deleteId?,
      removeChildId?] <;>
    (rcases h2 with rfl | h2 <;> [exact Or.inl hy.symm; exact Or.inr h2])

theorem delete_preds {t : VTree} {m : M} (hm : m ∈ deleteSub t) :
    insertParent? m = none ∧ removeParent? m = none ∧ insertChildId? m = none ∧
    removeChildId? m = none ∧ createId? m = none ∧
    (∀ x, deleteId? m = some x → x ∈ nodeIds t) := by
  rcases deleteSub_shape.1 t m hm with ⟨x, rfl, h1⟩
  refine ⟨rfl, rfl, rfl, rfl, rfl, fun y hy => ?_⟩
  simp_all [deleteId?]

theorem pairwise_of_mem {L : List M} (h : ∀ a ∈ L, ∀ b ∈ L, ROrd a b) :
    L.Pairwise ROrd := by
  induction L with
  | nil => exact .nil
  | cons a L ih =>
      exact .cons (fun b hb => h a (by simp) b (by simp [hb]))
        (ih (fun x hx y hy => h x (by simp [hx]) y (by simp [hy])))


theorem createSub_pairwise :
    (∀ t : VTree, ∀ par idx, (nodeIds t).Nodup → List.Pairwise ROrd (createSub par t idx)) ∧
    (∀ ts : VForest, ∀ par j, (forestIds ts).Nodup →
      List.Pairwise ROrd (createSubF par ts j)) := by
  have hnode : ∀ (i ty p : Nat) (cs : VForest),
      (∀ par j, (forestIds cs).Nodup → List.Pairwise ROrd (createSubF par cs j)) →
      ∀ par idx, (nodeIds (.node i ty p cs)).Nodup →
        List.Pairwise ROrd (createSub par (.node i ty p cs) idx) := by
    intro i ty p cs ih par idx hnd
    rw [nodeIds_def] at hnd
    simp only [ident_node, children_node, List.nodup_cons] at hnd
    rw [show createSub par (.node i ty p cs) idx =
      .create (.node i ty p cs) :: .insert par (.node i ty p cs) idx ::
        createSubF (.node i ty p cs) cs 0 from rfl]
    refine List.Pairwise.cons (fun b _ => ROrd_of_left (by rfl) (by rfl) (by rfl) b)
      (List.Pairwise.cons (fun b hb => ?_) (ih _ 0 hnd.2))
    obtain ⟨_, hbrp, hbcre, _, _, _⟩ := createF_preds hb
    refine ⟨fun y hy1 hy2 => ?_, fun y hy1 _ => ?_, fun y hy1 hy2 => ?_⟩
    · rw [hbrp] at hy2
      cases hy2
    · rw [show deleteId? (M.insert par (.node i ty p cs) idx) = none from rfl] at hy1
      cases hy1
    · obtain rfl : i = y := by simpa [insertChildId?] using hy1
      exact hnd.1 (hbcre _ hy2)
  have hnil : ∀ (par : VTree) (j : Nat), (forestIds VForest.nil).Nodup →
      List.Pairwise ROrd (createSubF par .nil j) := by
    intro par j _
    exact .nil
  have hcons : ∀ (t : VTree) (ts : VForest),
      (∀ par idx, (nodeIds t).Nodup → List.Pairwise ROrd (createSub par t idx)) →
      (∀ par j, (forestIds ts).Nodup → List.Pairwise ROrd (createSubF par ts j)) →
      ∀ par j, (forestIds (.cons t ts)).Nodup →
        List.Pairwise ROrd (createSubF par (.cons t ts) j) := by
    intro t ts iht ihts par j hnd
    simp only [forestIds_cons, List.nodup_append] at hnd
    rw [show createSubF par (.cons t ts) j = createSub par t j ++ createSubF par ts (j + 1)
      from rfl]
    refine List.pairwise_append.mpr ⟨iht par j hnd.1, ihts par (j + 1) hnd.2.1,
      fun a ha b hb => ?_⟩
    obtain ⟨_, _, _, haic, hadel, _⟩ := create_preds ha
    obtain ⟨_, hbrp, hbcre, _, _, _⟩ := createF_preds hb
    refine ⟨fun y hy1 hy2 => ?_, fun y hy1 _ => ?_, fun y hy1 hy2 => ?_⟩
    · rw [hbrp] at hy2
      cases hy2
    · rw [hadel] at hy1
      cases hy1
    · exact hnd.2.2 (haic y hy1) (hbcre y hy2)
  exact ⟨fun t => tree_induction hnode hnil hcons t,
    fun ts => tree_induction_forest hnode hnil hcons ts⟩

theorem diffPairs_pairwise (par : VTree) : ∀ os ns : VForest,
    (∀ nc ∈ ns.toList, DOrd nc) → (∀ nc ∈ ns.toList, DBStmt nc) →
    (forestIds os).Nodup → (forestIds ns).Nodup →
    ∀ j, List.Pairwise ROrd (diffPairs par os ns j) := by
  intro os
  induction os using forest_induction with
  | nil =>
      intro ns _ _ _ _ j
      cases ns <;> exact .nil
  | cons oc os' ih =>
      intro ns hDOrd hDB hndOs hndNs j
      cases ns with
      | nil => exact .nil
      | cons nn ns' =>
          simp only [forestIds_cons, List.nodup_append] at hndOs hndNs
          rw [diffPairs_cons]
          refine List.pairwise_append.mpr ⟨?_, ?_, ?_⟩
          · exact hDOrd nn (by simp) oc par j hndOs.1 hndNs.1
          · exact ih ns' (fun nc h => hDOrd nc (by simp [h]))
              (fun nc h => hDB nc (by simp [h])) hndOs.2.1 hndNs.2.1 (j + 1)
          · intro a ha b hb
            obtain ⟨haip, _, _, haic, hadel, _⟩ := db_preds oc par j ha
            obtain ⟨_, hbrp, hbcre, _, _, hbrc⟩ := pairs_preds par os' ns' (j + 1)
              (fun nc h => hDB nc (by simp [h])) hb
            refine ⟨fun y hy1 hy2 => ?_, fun y hy1 hy2 => ?_, fun y hy1 hy2 => ?_⟩
            · exact hndNs.2.2 (haip y hy1) (hbrp y hy2)
            · exact hndOs.2.2 (childIds_sub oc (hadel y hy1)) (hbrc y hy2)
            · exact hndNs.2.2 (childIds_sub nn (haic y hy1)) (hbcre y hy2)

theorem insertsList_pairwise (osAll : VForest) (par : VTree)
    (hndO : (forestIds osAll).Nodup) : ∀ ns : VForest,
    (∀ nc ∈ ns.toList, DOrd nc) → (∀ nc ∈ ns.toList, DBStmt nc) →
    (forestIds ns).Nodup → par.ident ∉ forestIds ns →
    ∀ j, List.Pairwise ROrd (insertsList par osAll ns j) := by
  intro ns
  induction ns using forest_induction with
  | nil =>
      intro _ _ _ _ j
      exact .nil
  | cons nn ns' ih =>
      intro hDOrd hDB hndNs hpar j
      have hndNs' : (nodeIds nn).Nodup ∧ (forestIds ns').Nodup ∧
          (nodeIds nn).Disjoint (forestIds ns') := by
        simpa [List.nodup_append] using hndNs
      have hndnn := hndNs'.1
      have hnnch : nn.ident ∉ forestIds nn.children := by
        have := hndnn
        rw [nodeIds_def] at this
        exact (List.nodup_cons.mp this).1
      have hparnn : par.ident ∉ nodeIds nn := fun hc => hpar (by simp [hc])
      have hparns' : par.ident ∉ forestIds ns' := fun hc => hpar (by simp [hc])
      have htail := ih (fun nc h => hDOrd nc (by simp [h]))
        (fun nc h => hDB nc (by simp [h])) hndNs'.2.1 hparns' (j + 1)
      rw [insertsList_cons]
      cases hfind : findByIdent nn.ident osAll with
      | some oc =>
          have hocm := (findByIdent_some hfind).1
          have hoci := (findByIdent_some hfind).2
          refine List.pairwise_append.mpr ⟨?_, htail, ?_⟩
          · refine List.Pairwise.cons (fun b hb => ?_) ?_
            · obtain ⟨_, hbrp, hbcre, _, _, _⟩ := db_preds oc par j hb
              refine ⟨fun y hy1 hy2 => ?_, fun y hy1 _ => ?_, fun y hy1 hy2 => ?_⟩
              · obtain rfl : par.ident = y := by simpa [insertParent?] using hy1
                exact hparnn (hbrp _ hy2)
              · rw [show deleteId? (M.insert par nn j) = none from rfl] at hy1
                cases hy1
              · obtain rfl : nn.ident = y := by simpa [insertChildId?] using hy1
                exact hnnch (hbcre _ hy2)
            · exact hDOrd nn (by simp) oc par j (nodeIds_nodup_of_mem hndO hocm) hndnn
          · intro a ha b hb
            obtain ⟨_, hbrp, hbcre, _, _, hbrc⟩ := inserts_preds par osAll ns' (j + 1)
              (fun nc h => hDB nc (by simp [h])) hb
            have hmatched : ∀ y, y ∈ nodeIds oc → y ∈ matchedOldIds osAll ns' → False := by
              intro y hyoc hym
              rcases mem_matchedOldIds.mp hym with ⟨nc, hncm, oc', hf', hyoc'⟩
              have heq : oc = oc' :=
                mem_unique_tree hndO hocm (findByIdent_some hf').1 hyoc hyoc'
              have hii : nn.ident = nc.ident := by
                rw [← hoci, heq, (findByIdent_some hf').2]
              exact hndNs'.2.2 (ident_mem_nodeIds nn)
                (by rw [hii]; exact mem_forestIds_of_mem hncm (ident_mem_nodeIds nc))
            rcases (by simpa using ha) with rfl | ha'
            · refine ⟨fun y hy1 hy2 => ?_, fun y hy1 _ => ?_, fun y hy1 hy2 => ?_⟩
              · obtain rfl : par.ident = y := by simpa [insertParent?] using hy1
                exact hparns' (hbrp _ hy2)
              · rw [show deleteId? (M.insert par nn j) = none from rfl] at hy1
                cases hy1
              · obtain rfl : nn.ident = y := by simpa [insertChildId?] using hy1
                exact hndNs'.2.2 (ident_mem_nodeIds nn) (hbcre _ hy2)
            · obtain ⟨haip, _, _, haic, hadel, _⟩ := db_preds oc par j ha'
              refine ⟨fun y hy1 hy2 => ?_, fun y hy1 hy2 => ?_, fun y hy1 hy2 => ?_⟩
              · exact hndNs'.2.2 (haip y hy1) (hbrp y hy2)
              · exact hmatched y (childIds_sub oc (hadel y hy1)) (hbrc y hy2)
              · exact hndNs'.2.2 (childIds_sub nn (haic y hy1)) (hbcre y hy2)
      | none =>
          refine List.pairwise_append.mpr ⟨createSub_pairwise.1 nn par j hndnn, htail, ?_⟩
          intro a ha b hb
          obtain ⟨haip, _, _, haic, hadel, _⟩ := create_preds ha
          obtain ⟨_, hbrp, hbcre, _, _, _⟩ := inserts_preds par osAll ns' (j + 1)
            (fun nc h => hDB nc (by simp [h])) hb
          refine ⟨fun y hy1 hy2 => ?_, fun y hy1 _ => ?_, fun y hy1 hy2 => ?_⟩
          · rcases haip y hy1 with rfl | hy
            · exact hparns' (hbrp _ hy2)
            · exact hndNs'.2.2 hy (hbrp _ hy2)
          · rw [hadel] at hy1
            cases hy1
          · exact hndNs'.2.2 (haic y hy1) (hbcre y hy2)

theorem dl_matched_disj (oCs nCs : VForest) (hnd : (forestIds oCs).Nodup) {x : Nat}
    (h1 : x ∈ (oCs.toList.filter
      (fun oc => !(decide (oc.ident ∈ idents nCs)))).flatMap nodeIds)
    (h2 : x ∈ matchedOldIds oCs nCs) : False := by
  rcases List.mem_flatMap.mp h1 with ⟨t, htdl, hxt⟩
  have htm : t ∈ oCs.toList := (List.mem_filter.mp htdl).1
  have hcond := (List.mem_filter.mp htdl).2
  simp only [Bool.not_eq_true', decide_eq_false_iff_not] at hcond
  rcases mem_matchedOldIds.mp h2 with ⟨nc, hncm, oc, hf, hxoc⟩
  have heq : t = oc := mem_unique_tree hnd htm (findByIdent_some hf).1 hxt hxoc
  exact hcond (by
    rw [heq, (findByIdent_some hf).2]
    exact mem_idents_of_mem hncm)

theorem dord_strong : ∀ N : Nat, ∀ n : VTree, tsizeT n ≤ N → DOrd n := by
  intro N
  induction N with
  | zero =>
      intro n hn
      exact absurd hn (by have := tsizeT_pos n; omega)
  | succ N ihN =>
      intro n hn o par idx hndO hndN
      cases o with
      | node oi oty oprops oCs =>
      cases n with
      | node ni nty nprops nCs =>
      rw [tsizeT] at hn
      rw [nodeIds_def] at hndO hndN
      simp only [ident_node, children_node, List.nodup_cons] at hndO hndN
      have hDOrdCs : ∀ nc ∈ nCs.toList, DOrd nc := fun nc hmem =>
        ihN nc (by have := tsizeT_le_of_mem hmem; omega)
      have hDBCs : ∀ nc ∈ nCs.toList, DBStmt nc := fun nc _ => db_all nc
      rw [diffNode_eq]
      refine List.pairwise_append.mpr ⟨?_, ?_, ?_⟩
      · by_cases hprops : oprops = nprops
        · rw [if_pos hprops]
          exact .nil
        · rw [if_neg hprops]
          exact List.pairwise_singleton _ _
      · by_cases hids : idents oCs = idents nCs
        · rw [if_pos hids]
          exact diffPairs_pairwise _ oCs nCs hDOrdCs hDBCs hndO.2 hndN.2 0
        · rw [if_neg hids]
          refine List.pairwise_append.mpr ⟨?_, ?_, ?_⟩
          · refine List.pairwise_append.mpr ⟨?_, ?_, ?_⟩
            · refine pairwise_of_mem (fun a ha b _ => ?_)
              rcases removesRev_shape _ _ a ha with ⟨i, o1, rfl, _⟩
              exact ROrd_of_left (by rfl) (by rfl) (by rfl) b
            · refine pairwise_of_mem (fun a ha b hb => ?_)
              rcases List.mem_flatMap.mp ha with ⟨t1, _, hat⟩
              rcases List.mem_flatMap.mp hb with ⟨t2, _, hbt⟩
              obtain ⟨ha1, _, ha3, _, _, _⟩ := delete_preds hat
              obtain ⟨_, _, _, hb4, _, _⟩ := delete_preds hbt
              refine ⟨fun y hy1 _ => ?_, fun y _ hy2 => ?_, fun y hy1 _ => ?_⟩
              · rw [ha1] at hy1; cases hy1
              · rw [hb4] at hy2; cases hy2
              · rw [ha3] at hy1; cases hy1
            · intro a ha b _
              rcases removesRev_shape _ _ a ha with ⟨i, o1, rfl, _⟩
              exact ROrd_of_left (by rfl) (by rfl) (by rfl) b
          · exact insertsList_pairwise oCs _ hndO.2 nCs hDOrdCs hDBCs hndN.2
              (by rw [ident_node]; exact hndN.1) 0
          · intro a ha b hb
            obtain ⟨_, hbrp, hbcre, _, _, hbrc⟩ := inserts_preds _ oCs nCs 0 hDBCs hb
            rcases List.mem_append.mp ha with harem | hadel
            · rcases removesRev_shape _ _ a harem with ⟨i, o1, rfl, _⟩
              exact ROrd_of_left (by rfl) (by rfl) (by rfl) b
            · rcases List.mem_flatMap.mp hadel with ⟨t1, htdl, hat⟩
              obtain ⟨ha1, _, ha3, _, _, ha6⟩ := delete_preds hat
              refine ⟨fun y hy1 _ => ?_, fun y hy1 hy2 => ?_, fun y hy1 _ => ?_⟩
              · rw [ha1] at hy1; cases hy1
              · refine dl_matched_disj oCs nCs hndO.2 ?_ (hbrc y hy2)
                exact List.mem_flatMap.mpr ⟨t1, htdl, ha6 y hy1⟩
              · rw [ha3] at hy1; cases hy1
      · intro a ha b _
        by_cases hprops : oprops = nprops
        · rw [if_pos hprops] at ha
          simp at ha
        · rw [if_neg hprops] at ha
          rcases (by simpa using ha) with rfl
          exact ROrd_of_left (by rfl) (by rfl) (by rfl) b

theorem dord_all (n : VTree) : DOrd n := dord_strong (tsizeT n) n (le_refl _)

/-- C2: in every list emitted by the differ for well-formed trees, pairwise in
emission order: no Insert into a parent precedes a Remove from that same
parent (all Removes for a parent come first), no Delete of a node precedes the
Remove that detaches that node, and no Insert attaching a node precedes the
Create that allocates it. -/
theorem diff_ordering (A B : VTree) (hA : WF A) (hB : WF B) :
    (diff A B).Pairwise ROrd :=
  dord_all B A B 0 hA hB

theorem diff_ordering_witness : (diff cexA cexB).Pairwise ROrd :=
  diff_ordering cexA cexB (by decide) (by decide)

theorem apply_error_reporting_witness :
    applyAll [M.insert (cexLeaf 1) (cexLeaf 2) 0] [] = ([], some (0, .unknownIdentity)) ∧
    (0 < 1 ∧ applyList [] ([] : HostState) = .ok [] ∧
      ∃ m, [M.insert (cexLeaf 1) (cexLeaf 2) 0].get? 0 = some m ∧
        applyM [] m = .error .unknownIdentity) :=
  ⟨rfl, by
    have := apply_error_reporting [M.insert (cexLeaf 1) (cexLeaf 2) 0] [] [] 0
      .unknownIdentity rfl
    simpa using this⟩

/-! ### Identity preservation -/


/-- A subtree identity of a matched new child that also occurs somewhere on
the old side must occur inside the identity-matched old partner. -/
theorem matched_new_id_old {osAll nsAll : VForest} (hsim : simF osAll nsAll = true)
    (hndO : (forestIds osAll).Nodup) (hndN : (forestIds nsAll).Nodup)
    {o nn : VTree} (ho : o ∈ osAll.toList) (hnn : nn ∈ nsAll.toList)
    (hid : o.ident = nn.ident) {x : Nat} (hx : x ∈ nodeIds nn)
    (hxo : x ∈ forestIds osAll) : x ∈ nodeIds o := by
  rcases (mem_forestIds_iff x osAll).mp hxo with ⟨oc', hoc', hx'⟩
  have hf := fresh_not_in_tail hsim hndN hnn hx hoc' hx'
  have hide : nn.ident = oc'.ident := (findByIdent_some hf).2
  have heq : o = oc' := ident_unique_tree hndO ho hoc' (by rw [hid, hide])
  rw [heq]
  exact hx'

/-- A subtree identity of a matched old child that also occurs somewhere on
the new side must occur inside the identity-matched new partner. -/
theorem matched_old_id_new {osAll nsAll : VForest} (hsim : simF osAll nsAll = true)
    (hndN : (forestIds nsAll).Nodup)
    {o nn : VTree} (ho : o ∈ osAll.toList) (hnn : nn ∈ nsAll.toList)
    (hid : o.ident = nn.ident) {x : Nat} (hx : x ∈ nodeIds o)
    (hxn : x ∈ forestIds nsAll) : x ∈ nodeIds nn := by
  rcases (mem_forestIds_iff x nsAll).mp hxn with ⟨nc', hnc', hx'⟩
  have hf := fresh_not_in_tail hsim hndN hnc' hx' ho hx
  have hf2 : findByIdent o.ident nsAll = some nn := by
    rw [hid]
    exact findByIdent_of_mem (idents_nodup hndN) hnn
  rw [hf] at hf2
  injection hf2 with h
  rw [← h]
  exact hx'

/-- No identity inside a freshly created new child occurs anywhere on the old
side. -/
theorem fresh_new_id_not_old {osAll nsAll : VForest} (hsim : simF osAll nsAll = true)
    (hndN : (forestIds nsAll).Nodup) {nn : VTree} (hnn : nn ∈ nsAll.toList)
    (hfresh : findByIdent nn.ident osAll = none) {x : Nat} (hx : x ∈ nodeIds nn) :
    x ∉ forestIds osAll := by
  intro hxo
  rcases (mem_forestIds_iff x osAll).mp hxo with ⟨oc', hoc', hx'⟩
  have hf := fresh_not_in_tail hsim hndN hnn hx hoc' hx'
  have hide : nn.ident = oc'.ident := (findByIdent_some hf).2
  exact (findByIdent_none_iff _ _).mp hfresh (by rw [hide]; exact mem_idents_of_mem hoc')

/-- No identity inside an unmatched old child occurs anywhere on the new side. -/
theorem unmatched_old_id_not_new {osAll nsAll : VForest} (hsim : simF osAll nsAll = true)
    {oc : VTree} (hoc : oc ∈ osAll.toList) (hfresh : oc.ident ∉ idents nsAll)
    {x : Nat} (hx : x ∈ nodeIds oc) : x ∉ forestIds nsAll :=
  simF_unmatched hsim hoc ((findByIdent_none_iff _ _).mpr hfresh) x hx


theorem pairs_dip (par : VTree) (osAll nsAll : VForest)
    (hsim : simF osAll nsAll = true)
    (hndO : (forestIds osAll).Nodup) (hndN : (forestIds nsAll).Nodup) :
    ∀ (os ns : VForest) (j : Nat),
    (∀ nc ∈ ns.toList, DIP nc) →
    (∀ t ∈ os.toList, t ∈ osAll.toList) →
    (∀ t ∈ ns.toList, t ∈ nsAll.toList) →
    idents os = idents ns →
    ∀ m ∈ diffPairs par os ns j, ∀ x,
      (createId? m = some x → x ∈ forestIds nsAll ∧ x ∉ forestIds osAll) ∧
      (deleteId? m = some x → x ∈ forestIds osAll ∧ x ∉ forestIds nsAll) := by
  intro os
  induction os using forest_induction with
  | nil =>
      intro ns j _ _ _ _ m hm
      cases ns <;> simp [diffPairs] at hm
  | cons o os' ih =>
      intro ns j hIH hsubO hsubN hids m hm x
      cases ns with
      | nil => simp [diffPairs] at hm
      | cons nn ns' =>
          simp only [idents_cons, List.cons.injEq] at hids
          have hoAll : o ∈ osAll.toList := hsubO o (by simp)
          have hnnAll : nn ∈ nsAll.toList := hsubN nn (by simp)
          rw [diffPairs_cons] at hm
          rcases List.mem_append.mp hm with hm' | hm'
          · have hfind : findByIdent o.ident nsAll = some nn := by
              rw [hids.1]
              exact findByIdent_of_mem (idents_nodup hndN) hnnAll
            have hsimT : simT o nn = true := (simF_matched hsim hoAll hfind).1
            have hp := hIH nn (by simp) o par j hsimT
              (nodeIds_nodup_of_mem hndO hoAll) (nodeIds_nodup_of_mem hndN hnnAll)
              m hm' x
            refine ⟨fun hc => ?_, fun hc => ?_⟩
            · obtain ⟨h1, h2⟩ := hp.1 hc
              refine ⟨mem_forestIds_of_mem hnnAll h1, fun hxo => ?_⟩
              exact h2 (matched_new_id_old hsim hndO hndN hoAll hnnAll hids.1 h1 hxo)
            · obtain ⟨h1, h2⟩ := hp.2 hc
              refine ⟨mem_forestIds_of_mem hoAll h1, fun hxn => ?_⟩
              exact h2 (matched_old_id_new hsim hndN hoAll hnnAll hids.1 h1 hxn)
          · exact ih ns' (j + 1) (fun nc h => hIH nc (by simp [h]))
              (fun t h => hsubO t (by simp [h])) (fun t h => hsubN t (by simp [h]))
              hids.2 m hm' x

theorem inserts_dip (par : VTree) (osAll nsAll : VForest)
    (hsim : simF osAll nsAll = true)
    (hndO : (forestIds osAll).Nodup) (hndN : (forestIds nsAll).Nodup) :
    ∀ (ns : VForest) (j : Nat),
    (∀ nc ∈ ns.toList, DIP nc) →
    (∀ t ∈ ns.toList, t ∈ nsAll.toList) →
    ∀ m ∈ insertsList par osAll ns j, ∀ x,
      (createId? m = some x → x ∈ forestIds nsAll ∧ x ∉ forestIds osAll) ∧
      (deleteId? m = some x → x ∈ forestIds osAll ∧ x ∉ forestIds nsAll) := by
  intro ns
  induction ns using forest_induction with
  | nil =>
      intro j _ _ m hm
      simp [insertsList_nil] at hm
  | cons nn ns' ih =>
      intro j hIH hsubN m hm x
      have hnnAll : nn ∈ nsAll.toList := hsubN nn (by simp)
      rw [insertsList_cons] at hm
      cases hfind : findByIdent nn.ident osAll with
      | some oc =>
          rw [hfind] at hm
          rcases List.mem_append.mp hm with hm' | hm'
          · rcases (by simpa using hm') with rfl | hm2
            · exact ⟨fun hc => by simp [createId?] at hc,
                fun hc => by simp [deleteId?] at hc⟩
            · obtain ⟨hocAll, hide⟩ := findByIdent_some hfind
              have hf2 : findByIdent oc.ident nsAll = some nn := by
                rw [hide]
                exact findByIdent_of_mem (idents_nodup hndN) hnnAll
              have hsimT : simT oc nn = true := (simF_matched hsim hocAll hf2).1
              have hp := hIH nn (by simp) oc par j hsimT
                (nodeIds_nodup_of_mem hndO hocAll) (nodeIds_nodup_of_mem hndN hnnAll)
                m hm2 x
              refine ⟨fun hc => ?_, fun hc => ?_⟩
              · obtain ⟨h1, h2⟩ := hp.1 hc
                refine ⟨mem_forestIds_of_mem hnnAll h1, fun hxo => ?_⟩
                exact h2 (matched_new_id_old hsim hndO hndN hocAll hnnAll hide h1 hxo)
              · obtain ⟨h1, h2⟩ := hp.2 hc
                refine ⟨mem_forestIds_of_mem hocAll h1, fun hxn => ?_⟩
                exact h2 (matched_old_id_new hsim hndN hocAll hnnAll hide h1 hxn)
          · exact ih (j + 1) (fun nc h => hIH nc (by simp [h]))
              (fun t h => hsubN t (by simp [h])) m hm' x
      | none =>
          rw [hfind] at hm
          rcases List.mem_append.mp hm with hm' | hm'
          · obtain ⟨_, _, hcre, _, hdel, _⟩ := create_preds hm'
            refine ⟨fun hc => ?_, fun hc => ?_⟩
            · refine ⟨mem_forestIds_of_mem hnnAll (hcre x hc), ?_⟩
              exact fresh_new_id_not_old hsim hndN hnnAll hfind (hcre x hc)
            · rw [hdel] at hc
              cases hc
          · exact ih (j + 1) (fun nc h => hIH nc (by simp [h]))
              (fun t h => hsubN t (by simp [h])) m hm' x

theorem dip_strong : ∀ N : Nat, ∀ n : VTree, tsizeT n ≤ N → DIP n := by
  intro N
  induction N with
  | zero =>
      intro n hn
      exact absurd hn (by have := tsizeT_pos n; omega)
  | succ N ihN =>
      intro n hn o par idx hsim hndO hndN
      cases o with
      | node oi oty oprops oCs =>
      cases n with
      | node ni nty nprops nCs =>
      rw [tsizeT] at hn
      simp only [simT_iff, ident_node, ty_node, children_node] at hsim
      obtain ⟨hid, hty, hsimF⟩ := hsim
      rw [nodeIds_def] at hndO hndN
      simp only [ident_node, children_node, List.nodup_cons] at hndO hndN
      have hDIPCs : ∀ nc ∈ nCs.toList, DIP nc := fun nc hmem =>
        ihN nc (by have := tsizeT_le_of_mem hmem; omega)
      have liftC : ∀ y, y ∈ forestIds nCs → y ∉ forestIds oCs →
          y ∈ nodeIds (VTree.node ni nty nprops nCs) ∧
            y ∉ nodeIds (VTree.node oi oty oprops oCs) := by
        intro y h1 h2
        simp only [nodeIds_def, ident_node, children_node, List.mem_cons, not_or]
        exact ⟨Or.inr h1, fun he => hndN.1 (by rw [he, hid] at h1; exact h1), h2⟩
      have liftD : ∀ y, y ∈ forestIds oCs → y ∉ forestIds nCs →
          y ∈ nodeIds (VTree.node oi oty oprops oCs) ∧
            y ∉ nodeIds (VTree.node ni nty nprops nCs) := by
        intro y h1 h2
        simp only [nodeIds_def, ident_node, children_node, List.mem_cons, not_or]
        exact ⟨Or.inr h1, fun he => hndO.1 (by rw [he, ← hid] at h1; exact h1), h2⟩
      intro m hm x
      rw [diffNode_eq] at hm
      rcases List.mem_append.mp hm with hup | hrest
      · have hnone : createId? m = none ∧ deleteId? m = none := by
          by_cases hp : oprops = nprops
          · rw [if_pos hp] at hup
            simp at hup
          · rw [if_neg hp] at hup
            rcases (by simpa using hup) with rfl
            exact ⟨rfl, rfl⟩
        refine ⟨fun hc => ?_, fun hc => ?_⟩
        · rw [hnone.1] at hc; cases hc
        · rw [hnone.2] at hc; cases hc
      · by_cases hids : idents oCs = idents nCs
        · rw [if_pos hids] at hrest
          have hp := pairs_dip _ oCs nCs hsimF hndO.2 hndN.2 oCs nCs 0 hDIPCs
            (fun t h => h) (fun t h => h) hids m hrest x
          exact ⟨fun hc => liftC x (hp.1 hc).1 (hp.1 hc).2,
            fun hc => liftD x (hp.2 hc).1 (hp.2 hc).2⟩
        · rw [if_neg hids] at hrest
          rcases List.mem_append.mp hrest with hrd | hins
          · rcases List.mem_append.mp hrd with hrem | hdel
            · rcases removesRev_shape _ _ m hrem with ⟨i, o1, rfl, _⟩
              exact ⟨fun hc => by simp [createId?] at hc,
                fun hc => by simp [deleteId?] at hc⟩
            · rcases List.mem_flatMap.mp hdel with ⟨t1, htdl, hmt⟩
              have ht1 : t1 ∈ oCs.toList := (List.mem_filter.mp htdl).1
              have hcond : t1.ident ∉ idents nCs := by
                have := (List.mem_filter.mp htdl).2
                simpa using this
              obtain ⟨_, _, _, _, hcre, hdel6⟩ := delete_preds hmt
              refine ⟨fun hc => ?_, fun hc => ?_⟩
              · rw [hcre] at hc
                cases hc
              · refine liftD x (mem_forestIds_of_mem ht1 (hdel6 x hc)) ?_
                exact unmatched_old_id_not_new hsimF ht1 hcond (hdel6 x hc)
          · have hp := inserts_dip _ oCs nCs hsimF hndO.2 hndN.2 nCs 0 hDIPCs
              (fun t h => h) m hins x
            exact ⟨fun hc => liftC x (hp.1 hc).1 (hp.1 hc).2,
              fun hc => liftD x (hp.2 hc).1 (hp.2 hc).2⟩

theorem dip_all (n : VTree) : DIP n := dip_strong (tsizeT n) n (le_refl _)

/-- C4 (amended): with the additional hypothesis that no identity shared by
the two well-formed trees changes parent or type (`simT`), an identity
present in both trees is never referenced by a Create or a Delete — it
survives the reconciliation, referenced only by Update or Remove+Insert.
Without that hypothesis the property fails: see the counterexample, where a
reparented identity present in both trees with equal type is referenced by
both a Create and a Delete. -/
theorem diff_identity_preservation (A B : VTree) (hA : WF A) (hB : WF B)
    (hsim : simT A B = true) (x : Nat) (hxA : x ∈ nodeIds A) (hxB : x ∈ nodeIds B) :
    ∀ m ∈ diff A B, createId? m ≠ some x ∧ deleteId? m ≠ some x := by
  intro m hm
  have hp := dip_all B A B 0 hsim hA hB m hm x
  exact ⟨fun hc => (hp.1 hc).2 hxA, fun hc => (hp.2 hc).2 hxB⟩

theorem diff_identity_preservation_witness :
    WF rtA ∧ WF rtB ∧ simT rtA rtB = true ∧ 1 ∈ nodeIds rtA ∧ 1 ∈ nodeIds rtB ∧
    ∀ m ∈ diff rtA rtB, createId? m ≠ some 1 ∧ deleteId? m ≠ some 1 :=
  ⟨by decide, by decide, by decide, by decide, by decide,
    diff_identity_preservation rtA rtB (by decide) (by decide) (by decide)
      1 (by decide) (by decide)⟩

/-- C4 (counterexample): identity 3 occurs in both trees with the same type,
yet because it is reparented the per-parent walk emits both a Create and a
Delete referencing it. -/
theorem diff_identity_preservation_cex :
    WF cexA ∧ WF cexB ∧ 3 ∈ nodeIds cexA ∧ 3 ∈ nodeIds cexB ∧
    tyAt cexA 3 = tyAt cexB 3 ∧
    ((diff cexA cexB).any fun m => decide (createId? m = some 3)) = true ∧
    ((diff cexA cexB).any fun m => decide (deleteId? m = some 3)) = true := by
  decide

end Reconcile

namespace Fabric

namespace ShadowViewMutation

/-- C5: each of the five factory functions returns a mutation whose type tag
matches the factory's name and whose operand fields equal the arguments
passed. -/
theorem factories_spec (v p c o n : ShadowView) (i : Int) :
    (CreateMutation v).type = .create ∧ (CreateMutation v).newChildShadowView = v ∧
    (DeleteMutation v).type = .delete ∧ (DeleteMutation v).oldChildShadowView = v ∧
    (InsertMutation p c i).type = .insert ∧ (InsertMutation p c i).parentShadowView = p ∧
    (InsertMutation p c i).newChildShadowView = c ∧ (InsertMutation p c i).index = i ∧
    (RemoveMutation p c i).type = .remove ∧ (RemoveMutation p c i).parentShadowView = p ∧
    (RemoveMutation p c i).oldChildShadowView = c ∧ (RemoveMutation p c i).index = i ∧
    (UpdateMutation p o n i).type = .update ∧ (UpdateMutation p o n i).parentShadowView = p ∧
    (UpdateMutation p o n i).oldChildShadowView = o ∧
    (UpdateMutation p o n i).newChildShadowView = n ∧ (UpdateMutation p o n i).index = i :=
  ⟨rfl, rfl, rfl, rfl, rfl, rfl, rfl, rfl, rfl, rfl, rfl, rfl, rfl, rfl, rfl, rfl, rfl⟩

/-- C6: a Create mutation carries no old child and no parent, and a Delete
mutation carries no new child and no parent — those fields keep the
value-initialized default `ShadowView{}`. -/
theorem create_delete_defaults (v : ShadowView) :
    (CreateMutation v).oldChildShadowView = default ∧
    (CreateMutation v).parentShadowView = default ∧
    (DeleteMutation v).newChildShadowView = default ∧
    (DeleteMutation v).parentShadowView = default :=
  ⟨rfl, rfl, rfl, rfl⟩

/-- C9: Create and Delete mutations carry the sentinel index `-1`, while
Insert, Remove and Update store exactly the caller-supplied index. -/
theorem factory_index_spec (v p c o n : ShadowView) (i : Int) :
    (CreateMutation v).index = -1 ∧ (DeleteMutation v).index = -1 ∧
    (InsertMutation p c i).index = i ∧ (RemoveMutation p c i).index = i ∧
    (UpdateMutation p o n i).index = i :=
  ⟨rfl, rfl, rfl, rfl, rfl⟩

end ShadowViewMutation

end Fabric

namespace TypedArrays

/-- C8: the kind-to-name and name-to-kind maps are mutually inverse on the
nine `TypedArrayKind` values, and `getTypedArrayKindForName` throws (embedded
as `none`) exactly for names outside the nine constructor names. -/
theorem name_kind_inverse :
    (∀ k, getTypedArrayKindForName (getTypedArrayConstructorName k) = some k) ∧
    (∀ s k, getTypedArrayKindForName s = some k → getTypedArrayConstructorName k = s) ∧
    (∀ s, getTypedArrayKindForName s = none ↔ s ∉ typedArrayNames) := by
  refine ⟨?_, ?_, ?_⟩
  · intro k
    cases k <;> rfl
  · intro s k h
    unfold getTypedArrayKindForName at h
    split_ifs at h <;>
      first
        | (injection h with h
           subst h
           simp [getTypedArrayConstructorName, *])
        | cases h
  · intro s
    unfold getTypedArrayKindForName typedArrayNames
    split_ifs <;> simp_all

theorem name_kind_inverse_witness :
    getTypedArrayConstructorName .uint8ClampedArray = "Uint8ClampedArray" :=
  name_kind_inverse.2.1 "Uint8ClampedArray" .uint8ClampedArray (by decide)

/-- C10: `arrayBufferUpdate` is rejected exactly when the data is longer than
the buffer; the offset plays no part in the check, and a call whose data fits
the buffer is accepted even when `offset + data.length` runs past the end. -/
theorem arrayBufferUpdate_reject_iff (buffer data : List Nat) (offset : Nat) :
    ((∃ e, arrayBufferUpdate buffer data offset = .error e) ↔
      data.length > buffer.length) ∧
    (∀ offset2, (∃ e, arrayBufferUpdate buffer data offset = .error e) ↔
      (∃ e, arrayBufferUpdate buffer data offset2 = .error e)) ∧
    (data.length ≤ buffer.length →
      ∃ r, arrayBufferUpdate buffer data offset = .ok r) := by
  unfold arrayBufferUpdate
  refine ⟨?_, ?_, ?_⟩
  · split_ifs with h <;> simp [h]
  · intro o2
    split_ifs <;> simp
  · intro h
    rw [if_neg (by omega)]
    exact ⟨_, rfl⟩

theorem arrayBufferUpdate_reject_iff_witness :
    (1 ≤ 2 ∧ ∃ r, arrayBufferUpdate [0, 0] [9] 5 = .ok r) ∧
    arrayBufferUpdate [0, 0] [9] 5 = .ok [0, 0, 9] :=
  ⟨⟨by decide, (arrayBufferUpdate_reject_iff [0, 0] [9] 5).2.2 (by decide)⟩, rfl⟩

end TypedArrays
